import Mathlib

/-!
Verification of the JSON-to-tables extraction engine
(`final_rendition.py` / `done.py` / `spec_based.py`).

Embedding conventions:

* A concrete or abstract path string such as `"root.invoice_items[3].id"` is
  represented segment-wise: `Seg` is one dot-separated segment, holding the
  key base (the text before the first `[`) and the list of bracketed indices
  (`[3]` becomes `Idx.num 3`, `[*]` becomes `Idx.star`).  This is faithful to
  the source provided object keys contain none of `.`, `[`, `]`, `*`, which
  holds for JSON documents fed to the engine; under that invariant the string
  operations of the source (`split(".")`, `split("[")[0]`,
  `startswith(key + "[")`, the `\[(\d+)\]` regex, `"[*]" in seg`) are exactly
  the segment operations defined below.
* JSON values are the inductive `J`; Python `dict` iteration order is the
  order of the association list.
* The per-parse mutable state of `JSONParser` is the structure `PState`;
  the fields `attempts`, `emits` and `events` are proof instrumentation
  recording which extractions were attempted, which rows were emitted and
  the index snapshot at each extraction point; the source fields are
  `index` (indexed_cache), `results` and `errors`.
-/

namespace PJH

/-- One bracketed index inside a path segment: `[3]` or `[*]`. -/
inductive Idx where
  | num (n : Nat)
  | star
deriving DecidableEq, Repr

/-- One dot-separated path segment, e.g. `invoice_items[3]`:
key base plus the bracketed indices in order. -/
structure Seg where
  key : String
  idxs : List Idx
deriving DecidableEq, Repr

/-- A path (`"root.a[3].b"` after `split(".")`): a list of segments. -/
abbrev JPath := List Seg

mutual
/-- JSON-like value tree (scalars collapsed to a string payload; their
identity is irrelevant to the engine).  Sequences and mappings carry their
own list types so that the tree is a mutual inductive; `JFields` preserves
Python dict insertion order. -/
inductive J where
  | null
  | scalar (v : String)
  | arr (xs : JList)
  | obj (fs : JFields)
/-- A JSON array's elements. -/
inductive JList where
  | nil
  | cons (v : J) (rest : JList)
/-- A JSON object's key/value pairs, in insertion order. -/
inductive JFields where
  | nil
  | cons (k : String) (v : J) (rest : JFields)
end

/-- Element access `xs[i]` on an array. -/
def JList.get? : JList → Nat → Option J
  | JList.nil, _ => none
  | JList.cons v _, 0 => some v
  | JList.cons _ rest, n + 1 => JList.get? rest n

/-- First binding of key `k` in an object (the only one when keys are
duplicate-free, as Python dicts are). -/
def lookupField : JFields → String → Option J
  | JFields.nil, _ => none
  | JFields.cons k v rest, k2 => if k = k2 then some v else lookupField rest k2

/-- The keys of an object, in order. -/
def fieldKeys : JFields → List String
  | JFields.nil => []
  | JFields.cons k _ rest => k :: fieldKeys rest

/-- `"[*]" in seg` of the source: the segment has a wildcard index. -/
def Seg.hasWildcard (s : Seg) : Bool := s.idxs.contains Idx.star

/-- The source's `_index_pattern.search(seg)` (regex `\[(\d+)\]`):
the first concrete (numeric) index occurring in the segment. -/
def Seg.firstNumIdx (s : Seg) : Option Nat :=
  s.idxs.findSome? fun i => match i with | .num n => some n | .star => none

/-- `seg.startswith(key_name + "[")` of the source: under the plain-key
invariant this holds exactly when the key base equals `k` and the segment
carries at least one bracketed index. -/
def Seg.startsKeyBracket (s : Seg) (k : String) : Bool :=
  s.key == k && !s.idxs.isEmpty

/-- Is this a concrete (numeric) index? -/
def Idx.isNum : Idx → Bool
  | Idx.num _ => true
  | Idx.star => false

/-- Does every index of every segment hold a concrete number?
Paths stored in the path index are concrete. -/
def isConcretePath (p : JPath) : Bool :=
  p.all fun s => s.idxs.all Idx.isNum

/-- Is every index a wildcard?  This is what an "abstract pattern" is. -/
def isAbstractPath (p : JPath) : Bool :=
  p.all fun s => s.idxs.all fun i => !i.isNum

/-! ## Alias resolution (`JSONParser._parsing_replace_wildcard_with_index`) -/

/-- The inner `for index in range(current_index, len(current_segments))` scan
of `_parsing_replace_wildcard_with_index`, expressed on the suffix
`cur.drop j` while tracking the absolute position `j`.  Returns the extracted
index and the cursor position just past the matched segment. -/
def scanSegs : List Seg → Nat → String → Option (Nat × Nat)
  | [], _, _ => none
  | sg :: rest, j, key =>
    if sg.startsKeyBracket key then
      match sg.firstNumIdx with
      | some n => some (n, j + 1)
      | none => scanSegs rest (j + 1) key
    else scanSegs rest (j + 1) key

/-- Forward scan of the current path starting at absolute cursor `j`. -/
def scanFrom (cur : JPath) (j : Nat) (key : String) : Option (Nat × Nat) :=
  scanSegs (cur.drop j) j key

/-- Main loop of `_parsing_replace_wildcard_with_index`: walks the alias
segments with the cursor `ci` into `currentPath`.  On a failed wildcard scan
the segment is kept as-is and the cursor is left unchanged (this is the
`final_rendition.py` behaviour). -/
def resolveGo (currentPath : JPath) : List Seg → Nat → JPath
  | [], _ => []
  | a :: rest, ci =>
    if a.hasWildcard then
      match scanFrom currentPath ci a.key with
      | some (n, ci2) => ⟨a.key, [Idx.num n]⟩ :: resolveGo currentPath rest ci2
      | none => a :: resolveGo currentPath rest ci
    else
      a :: resolveGo currentPath rest
        (if currentPath.get? ci = some a then ci + 1 else ci)

/-- `JSONParser._parsing_replace_wildcard_with_index(alias_path, current_path)`. -/
def replaceWildcardWithIndex (aliasPath currentPath : JPath) : JPath :=
  resolveGo currentPath aliasPath 0

/-! Claim-side resolver, written from the spec's words (§4.3): two cursors,
the current-path cursor kept as the not-yet-consumed suffix. -/

/-- Modelled from the spec: "a forward scan of the current path, starting at
the cursor, for the first segment whose key-base equals `key`; its concrete
index is extracted ... and the cursor advances past that segment". -/
def claimScan (key : String) : List Seg → Option (Nat × List Seg)
  | [] => none
  | sg :: rest =>
    if sg.key == key then
      match sg.idxs with
      | Idx.num n :: _ => some (n, rest)
      | _ => claimScan key rest
    else claimScan key rest

/-- Modelled from the spec: "walk alias segments and current-path segments
with two cursors.  A literal alias segment is copied through verbatim; the
current-path cursor advances past a segment only when it equals that literal
exactly.  A wildcard alias segment `key[*]` [scans forward]; if the scan
exhausts the current path without a match, resolution is Unresolved". -/
def resolveClaim : JPath → JPath → JPath
  | [], _ => []
  | a :: rest, cur =>
    if a.hasWildcard then
      match claimScan a.key cur with
      | some (n, cur2) => ⟨a.key, [Idx.num n]⟩ :: resolveClaim rest cur2
      | none => a :: resolveClaim rest cur
    else
      a :: resolveClaim rest (if cur.head? = some a then cur.tail else cur)

/-! ## Pattern matching (`path_matches` / `_parsing_path_matches`) -/

/-- One pattern index against one path index, per the compiled regex
(`re.escape(pattern).replace(r"\[\*\]", r"\[\d+\]")`): a wildcard accepts any
concrete index, a concrete pattern index only its literal self. -/
def idxMatch : Idx → Idx → Bool
  | Idx.star, Idx.num _ => true
  | Idx.num m, Idx.num n => m == n
  | _, Idx.star => false

/-- Pattern index list against path index list, position by position;
a length mismatch fails the whole segment. -/
def idxsMatch : List Idx → List Idx → Bool
  | [], [] => true
  | patI :: ps, pathI :: qs => idxMatch patI pathI && idxsMatch ps qs
  | _, _ => false

/-- One pattern segment against one path segment under the compiled regex:
literal key base, then the bracketed indices in lockstep. -/
def segMatch (patSeg pathSeg : Seg) : Bool :=
  patSeg.key == pathSeg.key && idxsMatch patSeg.idxs pathSeg.idxs

/-- `path_matches(path, pattern)` (`done.py`, `spec_based.py`,
`JSONParser._parsing_path_matches`): full-match of the escaped pattern
(with every `[*]` turned into `\[\d+\]`) against the path — i.e. the two
paths align segment for segment to the ends. -/
def path_matches : JPath → JPath → Bool
  | [], [] => true
  | pathSeg :: ps, patSeg :: qs => segMatch patSeg pathSeg && path_matches ps qs
  | _, _ => false

/-- Modelled from the spec (§4.2): replace every concrete `[idx]` of a
concrete path by `[*]`. -/
def starAll (p : JPath) : JPath :=
  p.map fun s => ⟨s.key, s.idxs.map fun _ => Idx.star⟩

/-! ## Spec compilation (`JSONParser._model_specs_create_specs_and_adapters`) -/

/-- Does the alias contain a `[*]` anywhere (`"[*]" in alias`)? -/
def pathHasWildcard (p : JPath) : Bool := p.any Seg.hasWildcard

/-- `".".join(alias.split(".")[:-1])` followed by `.split(".")`: the alias
with its final field segment removed.  For a single-segment alias the joined
string is `""`, and `"".split(".")` in Python is `[""]` — one empty
segment. -/
def aliasStem (a : JPath) : JPath :=
  if a.dropLast.isEmpty then [⟨"", []⟩] else a.dropLast

/-- `p.count(".")` of a joined stem: number of segments minus one. -/
def stemDepth (stem : JPath) : Nat := stem.length - 1

/-- `JSONParser._model_specs_find_deepest_wildcard_path`: Python `max` over
the stems keyed by `count(".")`; on ties `max` keeps the first maximum.
`max` on an empty sequence raises `ValueError`. -/
def find_deepest_wildcard_path (aliases : List JPath) : Except String JPath :=
  match aliases.map aliasStem with
  | [] => Except.error "max() arg is an empty sequence"
  | first :: rest =>
    Except.ok (rest.foldl (fun best p => if stemDepth best < stemDepth p then p else best) first)

/-- Does position `i` of every stem carry the same key base as the first
stem's segment there?  (`all(seg.split("[")[0] == first_base ...)` of the
source; under the plain-key invariant the base comparison is key equality
whether or not the segment has brackets.) -/
def basesAgreeAt (pss : List JPath) (first : JPath) (i : Nat) : Bool :=
  match first.get? i with
  | some fs => pss.all fun p => match p.get? i with | some s => s.key == fs.key | none => false
  | none => false

/-- The `for index in range(min_length)` loop of
`_model_specs_find_deepest_common_path_pattern`, with the remaining
iteration count as structural fuel: at position `i`, if every stem's segment
has the same key base as the first stem's segment there, that first stem's
segment is appended; otherwise the loop breaks. -/
def commonGo (pss : List JPath) (first : JPath) (i : Nat) : Nat → JPath
  | 0 => []
  | remaining + 1 =>
    if basesAgreeAt pss first i then
      match first.get? i with
      | some fs => fs :: commonGo pss first (i + 1) remaining
      | none => []
    else []

/-- `JSONParser._model_specs_find_deepest_common_path_pattern`: strips the
final field segment of every alias, takes the longest position-wise
base-equal run of segments (spelled as in the first alias), and returns
`"root"` when that run is empty.  `min` over an empty sequence raises
`ValueError` (a schema with no fields). -/
def find_deepest_common_path_pattern (aliases : List JPath) : Except String JPath :=
  match aliases.map aliasStem with
  | [] => Except.error "min() arg is an empty sequence"
  | first :: rest =>
    let minLen := rest.foldl (fun m p => min m p.length) first.length
    let common := commonGo (first :: rest) first 0 minLen
    Except.ok (if common.isEmpty then [⟨"root", []⟩] else common)

/-- One field after compilation: `(field_name, alias, has_wildcard)` as cached
in `model_fields_cache`. -/
structure FieldSpec where
  name : String
  aliasPath : JPath
  hasWildcard : Bool

/-- A declared model: its name and, per field, the optional alias
(`field_info.alias`). -/
structure ModelSchema where
  name : String
  fields : List (String × Option JPath)

/-- A compiled `ModelSpec` together with its cached field list. -/
structure Spec where
  name : String
  fields : List FieldSpec
  pattern : JPath

/-- The per-field loop of `_model_specs_create_specs_and_adapters`: raises
(`ValueError`) at the first field without an alias. -/
def collectFields : List (String × Option JPath) → Except String (List FieldSpec)
  | [] => Except.ok []
  | (fn, none) :: _ => Except.error ("Alias is required for field " ++ fn)
  | (fn, some al) :: rest =>
    (collectFields rest).map (fun fs => ⟨fn, al, pathHasWildcard al⟩ :: fs)

/-- Compilation of one model inside
`_model_specs_create_specs_and_adapters`: collect the fields (raising on a
missing alias), then compute the attachment pattern from the wildcarded
aliases when any exist, from all aliases otherwise. -/
def compileSchema (m : ModelSchema) : Except String Spec :=
  match collectFields m.fields with
  | Except.error e => Except.error e
  | Except.ok fields =>
    let wildcardAliases := (fields.filter (·.hasWildcard)).map (·.aliasPath)
    match (if wildcardAliases.isEmpty then
        find_deepest_common_path_pattern (fields.map (·.aliasPath))
      else find_deepest_wildcard_path wildcardAliases) with
    | Except.error e => Except.error e
    | Except.ok pattern => Except.ok ⟨m.name, fields, pattern⟩

/-- `JSONParser.__init__`'s spec-compilation loop over all data models:
the first failing schema aborts construction. -/
def create_specs : List ModelSchema → Except String (List Spec)
  | [] => Except.ok []
  | m :: rest =>
    match compileSchema m with
    | Except.error e => Except.error e
    | Except.ok s =>
      match create_specs rest with
      | Except.error e => Except.error e
      | Except.ok t => Except.ok (s :: t)

/-! ## The walker (`JSONParser._parsing_walk` and friends) -/

/-- A raw assembled record: field name to looked-up value (`None` = absent). -/
abbrev Row := List (String × Option J)

/-- One collected error: `{path, model, errors}`. -/
abbrev ErrorEntry := JPath × String × List String

/-- The external validator boundary (`TypeAdapter.validate_python` +
`model_dump`): success gives the validated row, failure the field errors. -/
abbrev Validator := String → Row → Except (List String) Row

/-- Mutable state of a `JSONParser` during parsing.  `index` is
`indexed_cache`, `results` and `errors` are as in the source; `attempts`,
`emits` and `events` are proof instrumentation (extractions attempted,
rows emitted, extraction points with their index snapshot). -/
structure PState where
  index : List (JPath × J)
  results : List (String × List Row)
  errors : List ErrorEntry
  attempts : List (JPath × String)
  emits : List (JPath × String)
  events : List (JPath × J × List (JPath × J))

/-- A freshly constructed parser's state. -/
def initState : PState := ⟨[], [], [], [], [], []⟩

/-- Python dict lookup on the index: the most recent assignment wins
(assignments are consed at the front). -/
def lookupIdx : List (JPath × J) → JPath → Option J
  | [], _ => none
  | (q, v) :: rest, p => if q = p then some v else lookupIdx rest p

/-- `self.results[model_name].append(row)`. -/
def addRow : List (String × List Row) → String → Row → List (String × List Row)
  | [], m, r => [(m, [r])]
  | (k, rs) :: rest, m, r =>
    if k = m then (k, rs ++ [r]) :: rest else (k, rs) :: addRow rest m r

/-- One field of `_parsing_build_model_data`: resolve the alias when it has a
wildcard, then `indexed_cache.get(resolved_alias)`. -/
def fieldValue (index : List (JPath × J)) (p : JPath) (f : FieldSpec) : Option J :=
  lookupIdx index
    (if f.hasWildcard then replaceWildcardWithIndex f.aliasPath p else f.aliasPath)

/-- `JSONParser._parsing_build_model_data`. -/
def buildModelData (index : List (JPath × J)) (p : JPath) (sp : Spec) : Row :=
  sp.fields.map fun f => (f.name, fieldValue index p f)

/-- The body of `_parsing_extract_models_at_path` for one spec: on a pattern
match, build the record and validate it; a success appends a row, a failure
appends one error entry; either way extraction continues. -/
def extractStep (val : Validator) (p : JPath) (st : PState) (sp : Spec) : PState :=
  if path_matches p sp.pattern then
    match val sp.name (buildModelData st.index p sp) with
    | Except.ok row =>
      { st with results := addRow st.results sp.name row,
                attempts := st.attempts ++ [(p, sp.name)],
                emits := st.emits ++ [(p, sp.name)] }
    | Except.error es =>
      { st with errors := st.errors ++ [(p, sp.name, es)],
                attempts := st.attempts ++ [(p, sp.name)] }
  else st

/-- `JSONParser._parsing_extract_models_at_path`: try every spec in
declaration order. -/
def extractAt (specs : List Spec) (val : Validator) (p : JPath) (st : PState) : PState :=
  specs.foldl (extractStep val p) st

/-- `f"{path}[{index}]"`: appends a concrete index to the last segment of the
path string. -/
def appendIdx : JPath → Nat → JPath
  | [], n => [⟨"", [Idx.num n]⟩]
  | [s], n => [⟨s.key, s.idxs ++ [Idx.num n]⟩]
  | s :: rest, n => s :: appendIdx rest n

/-- `isinstance(obj, (dict, list))`. -/
def J.isContainer : J → Bool
  | .obj _ => true
  | .arr _ => true
  | _ => false

mutual
/-- `JSONParser._parsing_walk`.  A mapping node indexes and recurses into all
children, then attempts extraction at its own path (recording one
instrumentation event with the index snapshot); a sequence node indexes and
recurses but never extracts; a scalar only records itself. -/
def walk (specs : List Spec) (val : Validator) : J → JPath → PState → PState
  | v, p, st =>
    let st1 := { st with index := (p, v) :: st.index }
    match v with
    | J.obj fs =>
      let st2 := walkFields specs val fs p st1
      let st3 := { st2 with events := st2.events ++ [(p, J.obj fs, st2.index)] }
      extractAt specs val p st3
    | J.arr xs => walkItems specs val xs p 0 st1
    | _ => st1
/-- The `for key, value in obj.items()` loop of `_parsing_walk`: index each
child under `path.key` before recursing into containers. -/
def walkFields (specs : List Spec) (val : Validator) : JFields → JPath → PState → PState
  | JFields.nil, _, st => st
  | JFields.cons k v rest, p, st =>
    let fp := p ++ [⟨k, []⟩]
    let st1 := { st with index := (fp, v) :: st.index }
    let st2 := if v.isContainer then walk specs val v fp st1 else st1
    walkFields specs val rest p st2
/-- The `for index, item in enumerate(obj)` loop of `_parsing_walk`. -/
def walkItems (specs : List Spec) (val : Validator) : JList → JPath → Nat → PState → PState
  | JList.nil, _, _, st => st
  | JList.cons item rest, p, i, st =>
    let ip := appendIdx p i
    let st1 := { st with index := (ip, item) :: st.index }
    let st2 := if item.isContainer then walk specs val item ip st1 else st1
    walkItems specs val rest p (i + 1) st2
end

/-- The starting path `"root"`. -/
def rootPath : JPath := [⟨"root", []⟩]

/-- `self.results = {model_name: [] for model_name in self.model_specs}`. -/
def freshResults (specs : List Spec) : List (String × List Row) :=
  specs.map fun s => (s.name, [])

/-- The state `parse` hands to the walk: index cache cleared
(`clear_index_cache`), results dict reset, instrumentation cleared so that it
describes the current invocation; the error list is kept as the source
does. -/
def resetFor (specs : List Spec) (st : PState) : PState :=
  { st with index := [],
            results := freshResults specs,
            attempts := [], emits := [], events := [] }

/-- `JSONParser.parse`: clears the index cache, resets the results dict,
walks the document, then raises `ValueError(self.errors)` (modelled as
`Except.error`) whenever the error list is non-empty.  The error list itself
is never reset. -/
def parse (specs : List Spec) (val : Validator) (st : PState) (doc : J) :
    PState × Except (List ErrorEntry) (List (String × List Row)) :=
  let st2 := walk specs val doc rootPath (resetFor specs st)
  (st2, if st2.errors.isEmpty then Except.ok st2.results else Except.error st2.errors)

/-- `JSONParser.parse_batch`: resets the results dict, then walks every
document in turn.  Neither the index cache nor the error list is cleared —
not at entry and not between documents. -/
def parse_batch (specs : List Spec) (val : Validator) (st : PState) (docs : List J) :
    PState × List (String × List Row) :=
  let st1 := { st with results := freshResults specs }
  let st2 := docs.foldl (fun s d => walk specs val d rootPath s) st1
  (st2, st2.results)

/-! ## Node addressing inside a document

A node of a document is addressed by the list of steps from the root; the
walk's path strings are exactly `pathOfSteps` of the address. -/

/-- One navigation step: into an object field or an array element. -/
inductive Step where
  | field (k : String)
  | elem (i : Nat)
deriving DecidableEq, Repr

/-- The path string obtained by one step: `f"{path}.{key}"` for a field,
`f"{path}[{index}]"` for an element. -/
def stepPath (p : JPath) : Step → JPath
  | Step.field k => p ++ [⟨k, []⟩]
  | Step.elem i => appendIdx p i

/-- The path string of the node addressed by `ss`, starting from `p`. -/
def pathOfSteps (p : JPath) : List Step → JPath
  | [] => p
  | s :: ss => pathOfSteps (stepPath p s) ss

/-- The node of a document at an address, when it exists. -/
def getSteps : J → List Step → Option J
  | v, [] => some v
  | J.obj fs, Step.field k :: ss =>
    match lookupField fs k with
    | some w => getSteps w ss
    | none => none
  | J.arr xs, Step.elem i :: ss =>
    match xs.get? i with
    | some w => getSteps w ss
    | none => none
  | _, _ :: _ => none

/-- The canonical step decoding of a segment: its key as a field step, then
its indices as element steps (a wildcard index cannot occur in a path built
by the walk; it decodes arbitrarily). -/
def segSteps (s : Seg) : List Step :=
  Step.field s.key :: s.idxs.map fun i => match i with
    | Idx.num n => Step.elem n
    | Idx.star => Step.elem 0

/-- Decoding of a whole path into steps (used to prove that `pathOfSteps`
is injective in the address). -/
def toSteps (p : JPath) : List Step := p.flatMap segSteps

mutual
/-- All paths of nodes in the subtree rooted at `p` holding `v` —
exactly the keys the walk records while visiting `v` at `p`. -/
def subPaths : J → JPath → List JPath
  | J.obj fs, p => p :: fieldSubPaths fs p
  | J.arr xs, p => p :: itemSubPaths xs p 0
  | _, p => [p]
/-- Subtree paths of all children of an object at `p`. -/
def fieldSubPaths : JFields → JPath → List JPath
  | JFields.nil, _ => []
  | JFields.cons k v rest, p => subPaths v (p ++ [⟨k, []⟩]) ++ fieldSubPaths rest p
/-- Subtree paths of the items of an array at `p`, from index `i` on. -/
def itemSubPaths : JList → JPath → Nat → List JPath
  | JList.nil, _, _ => []
  | JList.cons v rest, p, i => subPaths v (appendIdx p i) ++ itemSubPaths rest p (i + 1)
end

/-- The partial forms of one segment: `a`, `a[3]`, `a[3][1]`, ... -/
def segAncestors (s : Seg) : List Seg :=
  (List.range (s.idxs.length + 1)).map fun j => ⟨s.key, s.idxs.take j⟩

/-- Every ancestor-or-self path of a path, in root-to-leaf order: all the
paths the walk passes through (and indexes) while descending to it. -/
def ancestorsOrSelf : JPath → List JPath
  | [] => []
  | s :: rest => ((segAncestors s).map fun t => [t]) ++
      (ancestorsOrSelf rest).map (s :: ·)

mutual
/-- Well-formedness of a document as a Python value: every object's keys are
duplicate-free (a `dict` cannot hold two equal keys). -/
def wfJ : J → Bool
  | J.obj fs => wfFields fs
  | J.arr xs => wfItems xs
  | _ => true
/-- Keys pairwise distinct, children well-formed. -/
def wfFields : JFields → Bool
  | JFields.nil => true
  | JFields.cons k v rest =>
    !(fieldKeys rest).contains k && wfJ v && wfFields rest
/-- All items well-formed. -/
def wfItems : JList → Bool
  | JList.nil => true
  | JList.cons v rest => wfJ v && wfItems rest
end

/-- Membership of a key/value pair in an object's binding list. -/
def pairMem : JFields → String → J → Prop
  | JFields.nil, _, _ => False
  | JFields.cons k v rest, k2, v2 => (k = k2 ∧ v = v2) ∨ pairMem rest k2 v2

/-! ## Relations used by the invariant statements -/

/-- The walk only adds to the index, the error list and the instrumentation
lists (new index entries are consed in front — most recent first; errors,
attempts, emits and events are appended in order). -/
def grows (st st2 : PState) : Prop :=
  (∃ l, st2.index = l ++ st.index) ∧ (∃ l, st2.errors = st.errors ++ l) ∧
  (∃ l, st2.attempts = st.attempts ++ l) ∧ (∃ l, st2.emits = st.emits ++ l) ∧
  (∃ l, st2.events = st.events ++ l)

/-- The validator-independent part of the state: the index, which
extractions were attempted, and the extraction events. -/
def coreEq (st st2 : PState) : Prop :=
  st.index = st2.index ∧ st.attempts = st2.attempts ∧ st.events = st2.events

/-- An extraction event is sound when, at its index snapshot, every
ancestor-or-self path of the extraction point and every path in the subtree
below it is present. -/
def eventOK (e : JPath × J × List (JPath × J)) : Prop :=
  (∀ q ∈ ancestorsOrSelf e.1, lookupIdx e.2.2 q ≠ none) ∧
  (∀ q ∈ subPaths e.2.1 e.1, lookupIdx e.2.2 q ≠ none)

/-- All recorded extraction events are sound. -/
def eventsOK (st : PState) : Prop := ∀ e ∈ st.events, eventOK e

/-- Every emitted row was emitted at a path matching its spec's attachment
pattern. -/
def emitsOK (specs : List Spec) (st : PState) : Prop :=
  ∀ pr ∈ st.emits, ∃ sp ∈ specs, sp.name = pr.2 ∧ path_matches pr.1 sp.pattern = true

/-! ## Claim-side notions for the attachment-pattern computation -/

/-- Length of the maximal base-equal run starting at position `i`, bounded
by the remaining fuel. -/
def agreeRun (pss : List JPath) (first : JPath) (i : Nat) : Nat → Nat
  | 0 => 0
  | b + 1 =>
    if basesAgreeAt pss first i then agreeRun pss first (i + 1) b + 1 else 0

/-- Two paths of equal shape whose segments have pairwise equal key bases
(indices are ignored — "segments with identical array-key base name but
differing index are treated as equal"). -/
def baseEqPaths (p q : JPath) : Bool :=
  p.length == q.length && (List.zip p q).all fun pr => pr.1.key == pr.2.key

/-- `c` is a base-equal common prefix of every path in `stems`. -/
def isCommonBaseRun (c : JPath) (stems : List JPath) : Bool :=
  stems.all fun p => baseEqPaths c (p.take c.length)

/-- Modelled from the claim: does a non-trivial (non-empty) base-equal
common prefix of the given paths exist?  (All candidates are base-equal to
prefixes of the first path, so the search is bounded.) -/
def hasNontrivialCommon (paths : List JPath) : Bool :=
  match paths with
  | [] => false
  | first :: _ => (List.range first.length).any fun k =>
      isCommonBaseRun (first.take (k + 1)) paths

/-! # Theorems -/

/-! ## Alias resolution on wildcard-free aliases (C10) -/

theorem resolveGo_no_wildcard (cur : JPath) (al : List Seg)
    (h : ∀ s ∈ al, s.hasWildcard = false) : ∀ ci, resolveGo cur al ci = al := by
  induction al with
  | nil => intro ci; rfl
  | cons a rest ih =>
    intro ci
    have ha : a.hasWildcard = false := h a (List.mem_cons_self a rest)
    simp only [resolveGo, ha, Bool.false_eq_true, if_false]
    rw [ih (fun s hs => h s (List.mem_cons_of_mem a hs))]

/-- C10: alias resolution is the identity on wildcard-free aliases, and
therefore every wildcard-free alias (whether or not the compiler flagged it
as wildcarded) is looked up in the path index by its literal text, for any
current extraction path. -/
theorem c10_wildcard_free_alias_resolution_is_identity
    (al cur : JPath) (h : pathHasWildcard al = false) :
    replaceWildcardWithIndex al cur = al ∧
    ∀ (index : List (JPath × J)) (fn : String) (hw : Bool),
      fieldValue index cur ⟨fn, al, hw⟩ = lookupIdx index al := by
  have hall : ∀ s ∈ al, s.hasWildcard = false := by
    simpa [pathHasWildcard, List.any_eq_false] using h
  have hres : replaceWildcardWithIndex al cur = al :=
    resolveGo_no_wildcard cur al hall 0
  refine ⟨hres, fun index fn hw => ?_⟩
  cases hw <;> simp [fieldValue, hres]

theorem c10_witness :
    pathHasWildcard [⟨"root", []⟩, ⟨"x", []⟩] = false ∧
    replaceWildcardWithIndex [⟨"root", []⟩, ⟨"x", []⟩]
      [⟨"root", []⟩, ⟨"a", [Idx.num 3]⟩] = [⟨"root", []⟩, ⟨"x", []⟩] :=
  ⟨rfl, (c10_wildcard_free_alias_resolution_is_identity
    [⟨"root", []⟩, ⟨"x", []⟩] [⟨"root", []⟩, ⟨"a", [Idx.num 3]⟩] rfl).1⟩

/-! ## Pattern matching as star-normalisation (C4) -/

theorem idxsMatch_star_iff (qs : List Idx) :
    ∀ ps : List Idx, (∀ i ∈ ps, i.isNum = false) → (∀ i ∈ qs, i.isNum = true) →
    (idxsMatch ps qs = true ↔ qs.map (fun _ => Idx.star) = ps) := by
  induction qs with
  | nil =>
    intro ps hp _
    cases ps with
    | nil => simp [idxsMatch]
    | cons i t => simp [idxsMatch]
  | cons i t ih =>
    intro ps hp hq
    cases ps with
    | nil => simp [idxsMatch]
    | cons j s =>
      have hj : j.isNum = false := hp j (List.mem_cons_self j s)
      have hi : i.isNum = true := hq i (List.mem_cons_self i t)
      cases j with
      | num m => simp [Idx.isNum] at hj
      | star =>
        cases i with
        | star => simp [Idx.isNum] at hi
        | num n =>
          have := ih s (fun x hx => hp x (List.mem_cons_of_mem _ hx))
            (fun x hx => hq x (List.mem_cons_of_mem _ hx))
          simp [idxsMatch, idxMatch, this]

/-- C4: for a concrete path and an abstract (all-wildcard) pattern, the
matcher succeeds exactly when the path with every concrete index replaced by
`[*]` is segment-for-segment identical to the pattern. -/
theorem c4_match_iff_star_normal_form (path pattern : JPath)
    (hc : isConcretePath path = true) (ha : isAbstractPath pattern = true) :
    path_matches path pattern = true ↔ starAll path = pattern := by
  revert hc ha
  induction path generalizing pattern with
  | nil =>
    intro hc ha
    cases pattern with
    | nil => simp [path_matches, starAll]
    | cons t q => simp [path_matches, starAll]
  | cons s p ih =>
    intro hc ha
    cases pattern with
    | nil => simp [path_matches, starAll]
    | cons t q =>
      have hs : (∀ i ∈ s.idxs, i.isNum = true) ∧ isConcretePath p = true := by
        simpa [isConcretePath, List.all_eq_true] using hc
      have ht : (∀ i ∈ t.idxs, i.isNum = false) ∧ isAbstractPath q = true := by
        simpa [isAbstractPath, List.all_eq_true] using ha
      have hidx := idxsMatch_star_iff s.idxs t.idxs ht.1 hs.1
      have hrest := ih q hs.2 ht.2
      constructor
      · intro hm
        simp only [path_matches, Bool.and_eq_true, segMatch, beq_iff_eq] at hm
        obtain ⟨⟨hk, hi⟩, hr⟩ := hm
        simp only [starAll, List.map_cons, List.cons.injEq]
        refine ⟨?_, by simpa [starAll] using hrest.mp hr⟩
        cases t with
        | mk tk ti =>
          simp only [Seg.mk.injEq]
          exact ⟨hk.symm, hidx.mp hi⟩
      · intro hm
        simp only [starAll, List.map_cons, List.cons.injEq] at hm
        obtain ⟨hseg, hr⟩ := hm
        have hk : t.key = s.key := by rw [← hseg]
        have hi : t.idxs = s.idxs.map (fun _ => Idx.star) := by rw [← hseg]
        simp only [path_matches, Bool.and_eq_true, segMatch, beq_iff_eq]
        refine ⟨⟨hk, ?_⟩, hrest.mpr (by simpa [starAll] using hr)⟩
        exact hidx.mpr hi.symm

/-! ## Source resolver versus the spec's resolver description (C3) -/

theorem scanSegs_claimScan (key : String) (segs : List Seg) :
    ∀ (j : Nat), (∀ s ∈ segs, ∀ i ∈ s.idxs, i.isNum = true) →
    (scanSegs segs j key = none ∧ claimScan key segs = none) ∨
    (∃ n k, scanSegs segs j key = some (n, j + k + 1) ∧
       claimScan key segs = some (n, segs.drop (k + 1))) := by
  induction segs with
  | nil => intro j _; exact Or.inl ⟨rfl, rfl⟩
  | cons sg rest ih =>
    intro j h
    have hsg : ∀ i ∈ sg.idxs, i.isNum = true := h sg (List.mem_cons_self _ _)
    have hrest : ∀ s ∈ rest, ∀ i ∈ s.idxs, i.isNum = true :=
      fun s hs => h s (List.mem_cons_of_mem _ hs)
    by_cases hk : sg.key = key
    · cases hidx : sg.idxs with
      | nil =>
        have h1 : sg.startsKeyBracket key = false := by
          simp [Seg.startsKeyBracket, hidx]
        rcases ih (j + 1) hrest with ⟨hs1, hc1⟩ | ⟨n, k, hs1, hc1⟩
        · exact Or.inl ⟨by simp [scanSegs, h1, hs1], by simp [claimScan, hk, hidx, hc1]⟩
        · refine Or.inr ⟨n, k + 1, ?_, ?_⟩
          · rw [show j + (k + 1) + 1 = (j + 1) + k + 1 by omega]
            simp [scanSegs, h1, hs1]
          · simp [claimScan, hk, hidx, hc1]
      | cons i0 t =>
        have hi0 : i0.isNum = true := by
          apply hsg; rw [hidx]; exact List.mem_cons_self _ _
        cases i0 with
        | star => simp [Idx.isNum] at hi0
        | num n =>
          refine Or.inr ⟨n, 0, ?_, ?_⟩
          · simp [scanSegs, Seg.startsKeyBracket, hk, hidx, Seg.firstNumIdx]
          · simp [claimScan, hk, hidx]
    · have h1 : sg.startsKeyBracket key = false := by
        simp [Seg.startsKeyBracket, hk]
      rcases ih (j + 1) hrest with ⟨hs1, hc1⟩ | ⟨n, k, hs1, hc1⟩
      · exact Or.inl ⟨by simp [scanSegs, h1, hs1], by simp [claimScan, hk, hc1]⟩
      · refine Or.inr ⟨n, k + 1, ?_, ?_⟩
        · rw [show j + (k + 1) + 1 = (j + 1) + k + 1 by omega]
          simp [scanSegs, h1, hs1]
        · simp [claimScan, hk, hc1]

theorem resolveGo_eq_resolveClaim (cur : JPath) (hcur : isConcretePath cur = true)
    (al : List Seg) : ∀ ci, resolveGo cur al ci = resolveClaim al (cur.drop ci) := by
  have hconc : ∀ s ∈ cur, ∀ i ∈ s.idxs, i.isNum = true := by
    simpa [isConcretePath, List.all_eq_true] using hcur
  induction al with
  | nil => intro ci; rfl
  | cons a rest ih =>
    intro ci
    by_cases hw : a.hasWildcard = true
    · have hdrop : ∀ s ∈ cur.drop ci, ∀ i ∈ s.idxs, i.isNum = true :=
        fun s hs => hconc s (List.mem_of_mem_drop hs)
      rcases scanSegs_claimScan a.key (cur.drop ci) ci hdrop with ⟨h1, h2⟩ | ⟨n, k, h1, h2⟩
      · simp [resolveGo, resolveClaim, hw, scanFrom, h1, h2, ih]
      · have hdd : (cur.drop ci).drop (k + 1) = cur.drop (ci + k + 1) := by
          rw [List.drop_drop]
          rfl
        simp only [resolveGo, resolveClaim, hw, scanFrom, h1, h2, if_true]
        rw [ih (ci + k + 1), ← hdd]
    · have hb : a.hasWildcard = false := by simpa using hw
      have hhead : (cur.drop ci).head? = cur.get? ci := by
        rw [List.head?_drop, List.get?_eq_getElem?]
      by_cases he : cur.get? ci = some a
      · have htail : (cur.drop ci).tail = cur.drop (ci + 1) := List.tail_drop cur ci
        simp only [resolveGo, resolveClaim, hb, Bool.false_eq_true, if_false, he,
          if_true, hhead, htail]
        rw [ih (ci + 1)]
      · simp only [resolveGo, resolveClaim, hb, Bool.false_eq_true, if_false, he,
          hhead, if_false]
        rw [ih ci]

theorem c4_witness :
    isConcretePath [⟨"root", []⟩, ⟨"a", [Idx.num 3]⟩] = true ∧
    isAbstractPath [⟨"root", []⟩, ⟨"a", [Idx.star]⟩] = true ∧
    (path_matches [⟨"root", []⟩, ⟨"a", [Idx.num 3]⟩] [⟨"root", []⟩, ⟨"a", [Idx.star]⟩] = true ↔
      starAll [⟨"root", []⟩, ⟨"a", [Idx.num 3]⟩] = [⟨"root", []⟩, ⟨"a", [Idx.star]⟩]) :=
  ⟨rfl, rfl, c4_match_iff_star_normal_form _ _ rfl rfl⟩

/-! ## Spec compilation failures (C9) -/

theorem collectFields_error_of_missing :
    ∀ (fields : List (String × Option JPath)), (∃ fn, (fn, none) ∈ fields) →
    ∃ e, collectFields fields = Except.error e
  | [], h => by rcases h with ⟨fn, hfn⟩; cases hfn
  | (_, none) :: _, _ => ⟨_, rfl⟩
  | (k, some al) :: rest, h => by
    have hrest : ∃ fn, (fn, none) ∈ rest := by
      rcases h with ⟨fn, hfn⟩
      rcases List.mem_cons.mp hfn with heq | hmem
      · exact absurd heq (by simp)
      · exact ⟨fn, hmem⟩
    obtain ⟨e, he⟩ := collectFields_error_of_missing rest hrest
    exact ⟨e, by simp [collectFields, he, Except.map]⟩

theorem compileSchema_error_of_bad (m : ModelSchema)
    (h : (∃ fn, (fn, none) ∈ m.fields) ∨ m.fields = []) :
    ∃ e, compileSchema m = Except.error e := by
  rcases h with hmiss | hempty
  · obtain ⟨e, he⟩ := collectFields_error_of_missing m.fields hmiss
    exact ⟨e, by simp [compileSchema, he]⟩
  · cases m with
    | mk name fields =>
      cases hempty
      exact ⟨"min() arg is an empty sequence", rfl⟩

theorem create_specs_error_of_mem :
    ∀ (models : List ModelSchema) (m : ModelSchema), m ∈ models →
    (∃ e, compileSchema m = Except.error e) →
    ∃ e2, create_specs models = Except.error e2
  | [], m, hm, _ => absurd hm (List.not_mem_nil m)
  | h :: t, m, hm, he => by
    rcases List.mem_cons.mp hm with rfl | hmem
    · obtain ⟨e, hee⟩ := he
      exact ⟨e, by simp [create_specs, hee]⟩
    · cases hh : compileSchema h with
      | error e => exact ⟨e, by simp [create_specs, hh]⟩
      | ok s =>
        obtain ⟨e2, he2⟩ := create_specs_error_of_mem t m hmem he
        exact ⟨e2, by simp [create_specs, hh, he2]⟩

/-- C9: spec compilation fails — the constructor raises before any document
can be parsed — whenever some field of a schema has no alias or some schema
has no fields; no spec list is produced. -/
theorem c9_compilation_fails_on_invalid_schemas (models : List ModelSchema)
    (h : ∃ m ∈ models, (∃ fn, (fn, none) ∈ m.fields) ∨ m.fields = []) :
    ∃ e, create_specs models = Except.error e := by
  obtain ⟨m, hm, hbad⟩ := h
  exact create_specs_error_of_mem models m hm (compileSchema_error_of_bad m hbad)

theorem c9_witness :
    (∃ m ∈ [(⟨"Bad", [("f", none)]⟩ : ModelSchema)],
      (∃ fn, (fn, none) ∈ m.fields) ∨ m.fields = []) ∧
    ∃ e, create_specs [(⟨"Bad", [("f", none)]⟩ : ModelSchema)] = Except.error e :=
  ⟨⟨⟨"Bad", [("f", none)]⟩, List.mem_singleton.mpr rfl,
      Or.inl ⟨"f", List.mem_singleton.mpr rfl⟩⟩,
   c9_compilation_fails_on_invalid_schemas _
     ⟨⟨"Bad", [("f", none)]⟩, List.mem_singleton.mpr rfl,
      Or.inl ⟨"f", List.mem_singleton.mpr rfl⟩⟩⟩

/-! ## Attachment-pattern computation (C8) -/

theorem foldl_deepest_spec :
    ∀ (rest : List JPath) (first : JPath),
    (rest.foldl (fun best p => if stemDepth best < stemDepth p then p else best) first)
      ∈ first :: rest ∧
    ∀ x ∈ first :: rest, stemDepth x ≤
      stemDepth (rest.foldl (fun best p => if stemDepth best < stemDepth p then p else best) first)
  | [], first => ⟨List.mem_singleton.mpr rfl, by
      intro x hx
      rcases List.mem_singleton.mp hx with rfl
      exact Nat.le_refl _⟩
  | p :: t, first => by
    simp only [List.foldl_cons]
    by_cases hlt : stemDepth first < stemDepth p
    · rw [if_pos hlt]
      have ih := foldl_deepest_spec t p
      constructor
      · rcases List.mem_cons.mp ih.1 with hm | hm
        · rw [hm]; exact List.mem_cons_of_mem _ (List.mem_cons_self _ _)
        · exact List.mem_cons_of_mem _ (List.mem_cons_of_mem _ hm)
      · intro x hx
        rcases List.mem_cons.mp hx with rfl | hx2
        · exact Nat.le_trans (Nat.le_of_lt hlt) (ih.2 _ (List.mem_cons_self _ _))
        · exact ih.2 _ hx2
    · rw [if_neg hlt]
      have ih := foldl_deepest_spec t first
      constructor
      · rcases List.mem_cons.mp ih.1 with hm | hm
        · rw [hm]; exact List.mem_cons_self _ _
        · exact List.mem_cons_of_mem _ (List.mem_cons_of_mem _ hm)
      · intro x hx
        rcases List.mem_cons.mp hx with rfl | hx2
        · exact ih.2 _ (List.mem_cons_self _ _)
        · rcases List.mem_cons.mp hx2 with rfl | hx3
          · exact Nat.le_trans (Nat.le_of_not_lt hlt) (ih.2 _ (List.mem_cons_self _ _))
          · exact ih.2 _ (List.mem_cons_of_mem _ hx3)

theorem commonGo_eq_take (pss : List JPath) (first : JPath) :
    ∀ (b i : Nat), commonGo pss first i b = (first.drop i).take (agreeRun pss first i b)
  | 0, i => rfl
  | b + 1, i => by
    by_cases hb : basesAgreeAt pss first i = true
    · cases hfs : first.get? i with
      | none => rw [basesAgreeAt, hfs] at hb; cases hb
      | some fs =>
        have hlt : i < first.length := by
          by_contra hge
          rw [List.get?_eq_none.mpr (Nat.le_of_not_lt hge)] at hfs
          cases hfs
        have hdrop : first.drop i = fs :: first.drop (i + 1) := by
          rw [List.drop_eq_getElem_cons hlt]
          have h2 := hfs
          rw [List.get?_eq_getElem?, List.getElem?_eq_getElem hlt] at h2
          rw [Option.some.injEq] at h2
          rw [h2]
        simp only [commonGo, hfs, hb, if_true, agreeRun, hdrop, List.take_succ_cons]
        rw [commonGo_eq_take pss first b (i + 1)]
    · have hb2 : basesAgreeAt pss first i = false := by simpa using hb
      simp [commonGo, hb2, agreeRun]

/-- Inversion of a successful schema compilation. -/
theorem compileSchema_ok_inv (m : ModelSchema) (spec : Spec)
    (h : compileSchema m = Except.ok spec) :
    collectFields m.fields = Except.ok spec.fields ∧ spec.name = m.name ∧
    (((spec.fields.filter (·.hasWildcard)).map (·.aliasPath)) ≠ [] →
      find_deepest_wildcard_path ((spec.fields.filter (·.hasWildcard)).map (·.aliasPath)) =
        Except.ok spec.pattern) ∧
    (((spec.fields.filter (·.hasWildcard)).map (·.aliasPath)) = [] →
      find_deepest_common_path_pattern (spec.fields.map (·.aliasPath)) =
        Except.ok spec.pattern) := by
  cases hcf : collectFields m.fields with
  | error e => rw [compileSchema, hcf] at h; cases h
  | ok fields =>
    simp only [compileSchema, hcf] at h
    by_cases hwz : ((fields.filter (·.hasWildcard)).map (·.aliasPath)) = []
    · have hempty : ((fields.filter (·.hasWildcard)).map (·.aliasPath)).isEmpty = true := by
        rw [hwz]; rfl
      rw [hempty] at h
      simp only [if_true] at h
      cases hpat : find_deepest_common_path_pattern (fields.map (·.aliasPath)) with
      | error e => rw [hpat] at h; cases h
      | ok pat =>
        rw [hpat] at h
        have hspec : spec = ⟨m.name, fields, pat⟩ := by
          cases h; rfl
        subst hspec
        exact ⟨rfl, rfl, fun hne => absurd hwz hne, fun _ => hpat⟩
    · have hempty : ((fields.filter (·.hasWildcard)).map (·.aliasPath)).isEmpty = false := by
        cases hx : (fields.filter (·.hasWildcard)).map (·.aliasPath) with
        | nil => exact absurd hx hwz
        | cons a t => rfl
      rw [hempty] at h
      simp only [Bool.false_eq_true, if_false] at h
      cases hpat : find_deepest_wildcard_path ((fields.filter (·.hasWildcard)).map (·.aliasPath)) with
      | error e => rw [hpat] at h; cases h
      | ok pat =>
        rw [hpat] at h
        have hspec : spec = ⟨m.name, fields, pat⟩ := by
          cases h; rfl
        subst hspec
        exact ⟨rfl, rfl, fun _ => hpat, fun heq => absurd heq hwz⟩

/-- C8 counterexample: a table whose aliases are all single segments (so
every stem is the empty string).  No non-trivial base-equal common prefix of
the aliases exists, yet the compiled attachment pattern is the one-empty-
segment path `""` — not the root pattern the claim's fallback promises. -/
theorem c8_counterexample :
    compileSchema ⟨"Flat", [("id", some [⟨"id", []⟩]), ("nm", some [⟨"nm", []⟩])]⟩ =
      Except.ok ⟨"Flat", [⟨"id", [⟨"id", []⟩], false⟩, ⟨"nm", [⟨"nm", []⟩], false⟩],
        [⟨"", []⟩]⟩ ∧
    ([⟨"", []⟩] : JPath) ≠ [⟨"root", []⟩] ∧
    hasNontrivialCommon [[⟨"id", []⟩], [⟨"nm", []⟩]] = false :=
  ⟨rfl, by decide, rfl⟩

/-- C8 (amended): if any field alias contains a wildcard, the attachment
pattern is a stem (alias minus final segment) of one of the table's
wildcarded aliases, of maximal depth among them.  Otherwise the pattern is
the first alias's stem truncated to the longest position-wise base-equal run
of all stems, and falls back to the root pattern only when that run is
empty; since the stem of a single-segment alias is the one-empty-segment
path (Python's `"".split(".")`), a table whose aliases are all single
segments gets the empty-string pattern, not the root pattern. -/
theorem c8_amended_attachment_pattern (m : ModelSchema) (spec : Spec)
    (h : compileSchema m = Except.ok spec) :
    (((spec.fields.filter (·.hasWildcard)).map (·.aliasPath)) ≠ [] →
      spec.pattern ∈ ((spec.fields.filter (·.hasWildcard)).map (·.aliasPath)).map aliasStem ∧
      ∀ a ∈ (spec.fields.filter (·.hasWildcard)).map (·.aliasPath),
        stemDepth (aliasStem a) ≤ stemDepth spec.pattern) ∧
    (((spec.fields.filter (·.hasWildcard)).map (·.aliasPath)) = [] →
      ∀ first rest, (spec.fields.map (·.aliasPath)).map aliasStem = first :: rest →
        spec.pattern =
          (if agreeRun (first :: rest) first 0
               (rest.foldl (fun mn p => min mn p.length) first.length) = 0
           then [⟨"root", []⟩]
           else first.take (agreeRun (first :: rest) first 0
               (rest.foldl (fun mn p => min mn p.length) first.length)))) := by
  obtain ⟨hcf, hname, hwild, hcommon⟩ := compileSchema_ok_inv m spec h
  constructor
  · intro hne
    have hfw := hwild hne
    cases hwc : (spec.fields.filter (·.hasWildcard)).map (·.aliasPath) with
    | nil => exact absurd hwc hne
    | cons a t =>
      rw [hwc] at hfw
      simp only [find_deepest_wildcard_path, List.map_cons, Except.ok.injEq] at hfw
      have hsp := foldl_deepest_spec (t.map aliasStem) (aliasStem a)
      simp only [List.map_cons]
      constructor
      · rw [← hfw]; exact hsp.1
      · intro x hx
        rw [← hfw]
        rcases List.mem_cons.mp hx with rfl | hx2
        · exact hsp.2 _ (List.mem_cons_self _ _)
        · exact hsp.2 _ (List.mem_cons_of_mem _ (List.mem_map_of_mem aliasStem hx2))
  · intro hz
    have hfc := hcommon hz
    intro first rest hstems
    simp only [find_deepest_common_path_pattern, hstems, Except.ok.injEq] at hfc
    rw [commonGo_eq_take, List.drop_zero] at hfc
    cases hK : agreeRun (first :: rest) first 0
        (rest.foldl (fun mn p => min mn p.length) first.length) with
    | zero =>
      rw [hK, List.take_zero] at hfc
      simp only [if_pos rfl]
      rw [← hfc]
      rfl
    | succ k =>
      have hbag : basesAgreeAt (first :: rest) first 0 = true := by
        by_contra hbf
        have hbf2 : basesAgreeAt (first :: rest) first 0 = false := by
          simpa using hbf
        cases hml : rest.foldl (fun mn p => min mn p.length) first.length with
        | zero => rw [hml] at hK; cases hK
        | succ b =>
          rw [hml] at hK
          rw [agreeRun, hbf2] at hK
          simp at hK
      have hfs : ∃ fs f2, first = fs :: f2 := by
        cases hfirst : first with
        | nil =>
          rw [basesAgreeAt, hfirst] at hbag
          cases hbag
        | cons fs f2 => exact ⟨fs, f2, rfl⟩
      obtain ⟨fs, f2, rfl⟩ := hfs
      rw [hK] at hfc
      rw [List.take_succ_cons] at hfc
      have hie : (fs :: f2.take k).isEmpty = false := rfl
      rw [hie] at hfc
      simp only [Bool.false_eq_true, if_false] at hfc
      simp only [Nat.succ_ne_zero, if_false]
      rw [← hfc, List.take_succ_cons]

theorem c8_amended_witness :
    compileSchema ⟨"Tx", [("tx", some [⟨"root", []⟩, ⟨"items", [Idx.star]⟩, ⟨"tx", []⟩]),
        ("r", some [⟨"root", []⟩, ⟨"r", []⟩])]⟩ =
      Except.ok ⟨"Tx", [⟨"tx", [⟨"root", []⟩, ⟨"items", [Idx.star]⟩, ⟨"tx", []⟩], true⟩,
        ⟨"r", [⟨"root", []⟩, ⟨"r", []⟩], false⟩], [⟨"root", []⟩, ⟨"items", [Idx.star]⟩]⟩ ∧
    ([⟨"root", []⟩, ⟨"items", [Idx.star]⟩] : JPath) ∈
      (([⟨"tx", [⟨"root", []⟩, ⟨"items", [Idx.star]⟩, ⟨"tx", []⟩], true⟩,
        ⟨"r", [⟨"root", []⟩, ⟨"r", []⟩], false⟩] :
          List FieldSpec).filter (·.hasWildcard)).map ((aliasStem ·.aliasPath)) := by
  constructor
  · rfl
  · have := (c8_amended_attachment_pattern
      ⟨"Tx", [("tx", some [⟨"root", []⟩, ⟨"items", [Idx.star]⟩, ⟨"tx", []⟩]),
        ("r", some [⟨"root", []⟩, ⟨"r", []⟩])]⟩
      ⟨"Tx", [⟨"tx", [⟨"root", []⟩, ⟨"items", [Idx.star]⟩, ⟨"tx", []⟩], true⟩,
        ⟨"r", [⟨"root", []⟩, ⟨"r", []⟩], false⟩], [⟨"root", []⟩, ⟨"items", [Idx.star]⟩]⟩
      rfl).1 (by decide)
    simpa [List.map_map] using this.1

/-! ## State evolution of the walk -/

theorem grows_refl (st : PState) : grows st st :=
  ⟨⟨[], rfl⟩, ⟨[], by simp⟩, ⟨[], by simp⟩, ⟨[], by simp⟩, ⟨[], by simp⟩⟩

theorem grows_trans {st1 st2 st3 : PState} (h1 : grows st1 st2) (h2 : grows st2 st3) :
    grows st1 st3 := by
  obtain ⟨⟨a1, ha1⟩, ⟨b1, hb1⟩, ⟨c1, hc1⟩, ⟨d1, hd1⟩, ⟨e1, he1⟩⟩ := h1
  obtain ⟨⟨a2, ha2⟩, ⟨b2, hb2⟩, ⟨c2, hc2⟩, ⟨d2, hd2⟩, ⟨e2, he2⟩⟩ := h2
  refine ⟨⟨a2 ++ a1, ?_⟩, ⟨b1 ++ b2, ?_⟩, ⟨c1 ++ c2, ?_⟩, ⟨d1 ++ d2, ?_⟩, ⟨e1 ++ e2, ?_⟩⟩
  · rw [ha2, ha1, List.append_assoc]
  · rw [hb2, hb1, List.append_assoc]
  · rw [hc2, hc1, List.append_assoc]
  · rw [hd2, hd1, List.append_assoc]
  · rw [he2, he1, List.append_assoc]

theorem grows_add_index (st : PState) (e : JPath × J) :
    grows st { st with index := e :: st.index } :=
  ⟨⟨[e], rfl⟩, ⟨[], by simp⟩, ⟨[], by simp⟩, ⟨[], by simp⟩, ⟨[], by simp⟩⟩

theorem grows_add_event (st : PState) (e : JPath × J × List (JPath × J)) :
    grows st { st with events := st.events ++ [e] } :=
  ⟨⟨[], rfl⟩, ⟨[], by simp⟩, ⟨[], by simp⟩, ⟨[], by simp⟩, ⟨[e], rfl⟩⟩

theorem extractStep_index (val : Validator) (p : JPath) (st : PState) (sp : Spec) :
    (extractStep val p st sp).index = st.index := by
  rw [extractStep]
  split
  · split <;> rfl
  · rfl

theorem extractStep_events (val : Validator) (p : JPath) (st : PState) (sp : Spec) :
    (extractStep val p st sp).events = st.events := by
  rw [extractStep]
  split
  · split <;> rfl
  · rfl

theorem extractStep_grows (val : Validator) (p : JPath) (st : PState) (sp : Spec) :
    grows st (extractStep val p st sp) := by
  rw [extractStep]
  split
  · split
    · exact ⟨⟨[], rfl⟩, ⟨[], by simp⟩, ⟨_, rfl⟩, ⟨_, rfl⟩, ⟨[], by simp⟩⟩
    · exact ⟨⟨[], rfl⟩, ⟨_, rfl⟩, ⟨_, rfl⟩, ⟨[], by simp⟩, ⟨[], by simp⟩⟩
  · exact grows_refl st

theorem foldl_extractStep_index (val : Validator) (p : JPath) :
    ∀ (l : List Spec) (st : PState), (l.foldl (extractStep val p) st).index = st.index
  | [], st => rfl
  | sp :: t, st => by
    rw [List.foldl_cons, foldl_extractStep_index val p t, extractStep_index]

theorem foldl_extractStep_events (val : Validator) (p : JPath) :
    ∀ (l : List Spec) (st : PState), (l.foldl (extractStep val p) st).events = st.events
  | [], st => rfl
  | sp :: t, st => by
    rw [List.foldl_cons, foldl_extractStep_events val p t, extractStep_events]

theorem foldl_extractStep_grows (val : Validator) (p : JPath) :
    ∀ (l : List Spec) (st : PState), grows st (l.foldl (extractStep val p) st)
  | [], st => grows_refl st
  | sp :: t, st => by
    rw [List.foldl_cons]
    exact grows_trans (extractStep_grows val p st sp)
      (foldl_extractStep_grows val p t (extractStep val p st sp))

theorem extractAt_index (specs : List Spec) (val : Validator) (p : JPath) (st : PState) :
    (extractAt specs val p st).index = st.index :=
  foldl_extractStep_index val p specs st

theorem extractAt_events (specs : List Spec) (val : Validator) (p : JPath) (st : PState) :
    (extractAt specs val p st).events = st.events :=
  foldl_extractStep_events val p specs st

theorem extractAt_grows (specs : List Spec) (val : Validator) (p : JPath) (st : PState) :
    grows st (extractAt specs val p st) :=
  foldl_extractStep_grows val p specs st

mutual
theorem walk_grows (specs : List Spec) (val : Validator) :
    ∀ (v : J) (p : JPath) (st : PState), grows st (walk specs val v p st)
  | J.null, p, st => by
    simp only [walk]
    exact grows_add_index st _
  | J.scalar s, p, st => by
    simp only [walk]
    exact grows_add_index st _
  | J.obj fs, p, st => by
    simp only [walk]
    refine grows_trans (grows_add_index st ((p, J.obj fs)))
      (grows_trans (walkFields_grows specs val fs p _)
        (grows_trans (grows_add_event _ _) (extractAt_grows specs val p _)))
  | J.arr xs, p, st => by
    simp only [walk]
    exact grows_trans (grows_add_index st ((p, J.arr xs)))
      (walkItems_grows specs val xs p 0 _)
theorem walkFields_grows (specs : List Spec) (val : Validator) :
    ∀ (fs : JFields) (p : JPath) (st : PState), grows st (walkFields specs val fs p st)
  | JFields.nil, _, st => grows_refl st
  | JFields.cons k v rest, p, st => by
    simp only [walkFields]
    by_cases hc : v.isContainer = true
    · rw [if_pos hc]
      exact grows_trans (grows_add_index st _)
        (grows_trans (walk_grows specs val v _ _) (walkFields_grows specs val rest p _))
    · rw [if_neg hc]
      exact grows_trans (grows_add_index st _) (walkFields_grows specs val rest p _)
theorem walkItems_grows (specs : List Spec) (val : Validator) :
    ∀ (xs : JList) (p : JPath) (i : Nat) (st : PState), grows st (walkItems specs val xs p i st)
  | JList.nil, _, _, st => grows_refl st
  | JList.cons item rest, p, i, st => by
    simp only [walkItems]
    by_cases hc : item.isContainer = true
    · rw [if_pos hc]
      exact grows_trans (grows_add_index st _)
        (grows_trans (walk_grows specs val item _ _) (walkItems_grows specs val rest p (i + 1) _))
    · rw [if_neg hc]
      exact grows_trans (grows_add_index st _) (walkItems_grows specs val rest p (i + 1) _)
end

theorem lookupIdx_append_ne_none {idx : List (JPath × J)} {q : JPath}
    (h : lookupIdx idx q ≠ none) (l : List (JPath × J)) :
    lookupIdx (l ++ idx) q ≠ none := by
  induction l with
  | nil => exact h
  | cons e t ih =>
    cases e with
    | mk q2 w =>
      by_cases he : q2 = q
      · simp [lookupIdx, he]
      · simpa [lookupIdx, he] using ih

/-! ## Validator independence of the traversal -/

theorem extractStep_coreEq {st st2 : PState} (h : coreEq st st2) (val val2 : Validator)
    (p : JPath) (sp : Spec) : coreEq (extractStep val p st sp) (extractStep val2 p st2 sp) := by
  obtain ⟨hi, ha, he⟩ := h
  rw [extractStep, extractStep]
  by_cases hm : path_matches p sp.pattern = true
  · rw [if_pos hm, if_pos hm]
    cases h1 : val sp.name (buildModelData st.index p sp) <;>
      cases h2 : val2 sp.name (buildModelData st2.index p sp) <;>
      exact ⟨hi, by rw [ha], he⟩
  · rw [if_neg hm, if_neg hm]
    exact ⟨hi, ha, he⟩

theorem foldl_extractStep_coreEq (val val2 : Validator) (p : JPath) :
    ∀ (l : List Spec) {st st2 : PState}, coreEq st st2 →
    coreEq (l.foldl (extractStep val p) st) (l.foldl (extractStep val2 p) st2)
  | [], _, _, h => h
  | sp :: t, st, st2, h => by
    rw [List.foldl_cons, List.foldl_cons]
    exact foldl_extractStep_coreEq val val2 p t (extractStep_coreEq h val val2 p sp)

mutual
theorem walk_coreEq (specs : List Spec) (val val2 : Validator) :
    ∀ (v : J) (p : JPath) (st st2 : PState), coreEq st st2 →
    coreEq (walk specs val v p st) (walk specs val2 v p st2)
  | J.null, p, st, st2, h => by
    simp only [walk]
    exact ⟨by rw [h.1], h.2.1, h.2.2⟩
  | J.scalar s, p, st, st2, h => by
    simp only [walk]
    exact ⟨by rw [h.1], h.2.1, h.2.2⟩
  | J.obj fs, p, st, st2, h => by
    simp only [walk]
    have h1 : coreEq { st with index := (p, J.obj fs) :: st.index }
        { st2 with index := (p, J.obj fs) :: st2.index } := ⟨by rw [h.1], h.2.1, h.2.2⟩
    have h2 := walkFields_coreEq specs val val2 fs p _ _ h1
    have h3 : coreEq
        { walkFields specs val fs p { st with index := (p, J.obj fs) :: st.index } with
            events := (walkFields specs val fs p { st with index := (p, J.obj fs) :: st.index }).events ++
              [(p, J.obj fs, (walkFields specs val fs p { st with index := (p, J.obj fs) :: st.index }).index)] }
        { walkFields specs val2 fs p { st2 with index := (p, J.obj fs) :: st2.index } with
            events := (walkFields specs val2 fs p { st2 with index := (p, J.obj fs) :: st2.index }).events ++
              [(p, J.obj fs, (walkFields specs val2 fs p { st2 with index := (p, J.obj fs) :: st2.index }).index)] } :=
      ⟨h2.1, h2.2.1, by rw [h2.2.2, h2.1]⟩
    exact foldl_extractStep_coreEq val val2 p specs h3
  | J.arr xs, p, st, st2, h => by
    simp only [walk]
    exact walkItems_coreEq specs val val2 xs p 0 _ _ ⟨by rw [h.1], h.2.1, h.2.2⟩
theorem walkFields_coreEq (specs : List Spec) (val val2 : Validator) :
    ∀ (fs : JFields) (p : JPath) (st st2 : PState), coreEq st st2 →
    coreEq (walkFields specs val fs p st) (walkFields specs val2 fs p st2)
  | JFields.nil, _, _, _, h => h
  | JFields.cons k v rest, p, st, st2, h => by
    simp only [walkFields]
    have h1 : coreEq { st with index := (p ++ [⟨k, []⟩], v) :: st.index }
        { st2 with index := (p ++ [⟨k, []⟩], v) :: st2.index } := ⟨by rw [h.1], h.2.1, h.2.2⟩
    by_cases hc : v.isContainer = true
    · rw [if_pos hc, if_pos hc]
      exact walkFields_coreEq specs val val2 rest p _ _ (walk_coreEq specs val val2 v _ _ _ h1)
    · rw [if_neg hc, if_neg hc]
      exact walkFields_coreEq specs val val2 rest p _ _ h1
theorem walkItems_coreEq (specs : List Spec) (val val2 : Validator) :
    ∀ (xs : JList) (p : JPath) (i : Nat) (st st2 : PState), coreEq st st2 →
    coreEq (walkItems specs val xs p i st) (walkItems specs val2 xs p i st2)
  | JList.nil, _, _, _, _, h => h
  | JList.cons item rest, p, i, st, st2, h => by
    simp only [walkItems]
    have h1 : coreEq { st with index := (appendIdx p i, item) :: st.index }
        { st2 with index := (appendIdx p i, item) :: st2.index } := ⟨by rw [h.1], h.2.1, h.2.2⟩
    by_cases hc : item.isContainer = true
    · rw [if_pos hc, if_pos hc]
      exact walkItems_coreEq specs val val2 rest p (i + 1) _ _ (walk_coreEq specs val val2 item _ _ _ h1)
    · rw [if_neg hc, if_neg hc]
      exact walkItems_coreEq specs val val2 rest p (i + 1) _ _ h1
end

/-! ## Every emitted row sits at a matching path -/

theorem extractStep_emitsOK {specs : List Spec} (val : Validator) (p : JPath)
    (st : PState) (sp : Spec) (hsp : sp ∈ specs) (h : emitsOK specs st) :
    emitsOK specs (extractStep val p st sp) := by
  rw [extractStep]
  split
  · rename_i hm
    split
    · intro pr hpr
      rcases List.mem_append.mp hpr with hold | hnew
      · exact h pr hold
      · rcases List.mem_singleton.mp hnew with rfl
        exact ⟨sp, hsp, rfl, hm⟩
    · exact h
  · exact h

theorem foldl_extractStep_emitsOK (specs : List Spec) (val : Validator) (p : JPath) :
    ∀ (l : List Spec) (st : PState), (∀ sp ∈ l, sp ∈ specs) → emitsOK specs st →
    emitsOK specs (l.foldl (extractStep val p) st)
  | [], _, _, h => h
  | sp :: t, st, hsub, h => by
    rw [List.foldl_cons]
    exact foldl_extractStep_emitsOK specs val p t _
      (fun x hx => hsub x (List.mem_cons_of_mem _ hx))
      (extractStep_emitsOK val p st sp (hsub sp (List.mem_cons_self _ _)) h)

mutual
theorem walk_emitsOK (specs : List Spec) (val : Validator) :
    ∀ (v : J) (p : JPath) (st : PState), emitsOK specs st →
    emitsOK specs (walk specs val v p st)
  | J.null, p, st, h => by simpa only [walk] using h
  | J.scalar s, p, st, h => by simpa only [walk] using h
  | J.obj fs, p, st, h => by
    simp only [walk]
    refine foldl_extractStep_emitsOK specs val p specs _ (fun x hx => hx) ?_
    exact walkFields_emitsOK specs val fs p _ h
  | J.arr xs, p, st, h => by
    simp only [walk]
    exact walkItems_emitsOK specs val xs p 0 _ h
theorem walkFields_emitsOK (specs : List Spec) (val : Validator) :
    ∀ (fs : JFields) (p : JPath) (st : PState), emitsOK specs st →
    emitsOK specs (walkFields specs val fs p st)
  | JFields.nil, _, _, h => h
  | JFields.cons k v rest, p, st, h => by
    simp only [walkFields]
    by_cases hc : v.isContainer = true
    · rw [if_pos hc]
      exact walkFields_emitsOK specs val rest p _ (walk_emitsOK specs val v _ _ h)
    · rw [if_neg hc]
      exact walkFields_emitsOK specs val rest p _ h
theorem walkItems_emitsOK (specs : List Spec) (val : Validator) :
    ∀ (xs : JList) (p : JPath) (i : Nat) (st : PState), emitsOK specs st →
    emitsOK specs (walkItems specs val xs p i st)
  | JList.nil, _, _, _, h => h
  | JList.cons item rest, p, i, st, h => by
    simp only [walkItems]
    by_cases hc : item.isContainer = true
    · rw [if_pos hc]
      exact walkItems_emitsOK specs val rest p (i + 1) _ (walk_emitsOK specs val item _ _ h)
    · rw [if_neg hc]
      exact walkItems_emitsOK specs val rest p (i + 1) _ h
end

/-- C7: every row appended to the result set during a parse was assembled at
a concrete path that matches the attachment pattern of the spec it was
emitted for; no row is ever emitted at a non-matching path. -/
theorem c7_rows_only_at_matching_paths (specs : List Spec) (val : Validator)
    (st : PState) (doc : J) (p : JPath) (nm : String)
    (h : (p, nm) ∈ (parse specs val st doc).1.emits) :
    ∃ sp ∈ specs, sp.name = nm ∧ path_matches p sp.pattern = true := by
  refine walk_emitsOK specs val doc rootPath _ ?_ (p, nm) h
  intro pr hpr
  cases hpr

theorem c7_witness :
    (([⟨"root", []⟩], "R") ∈
      (parse [⟨"R", [], [⟨"root", []⟩]⟩] (fun _ r => Except.ok r) initState
        (J.obj JFields.nil)).1.emits) ∧
    ∃ sp ∈ [(⟨"R", [], [⟨"root", []⟩]⟩ : Spec)], sp.name = "R" ∧
      path_matches [⟨"root", []⟩] sp.pattern = true := by
  have hm : (([⟨"root", []⟩] : JPath), "R") ∈
      (parse [⟨"R", [], [⟨"root", []⟩]⟩] (fun _ r => Except.ok r) initState
        (J.obj JFields.nil)).1.emits := by
    show (([⟨"root", []⟩] : JPath), "R") ∈ [(([⟨"root", []⟩] : JPath), "R")]
    exact List.mem_singleton.mpr rfl
  exact ⟨hm, c7_rows_only_at_matching_paths _ _ _ _ _ _ hm⟩

/-! ## Error collection and the raise in `parse` (C1), state leakage (C2) -/

theorem foldl_walk_grows (specs : List Spec) (val : Validator) :
    ∀ (docs : List J) (st : PState),
    grows st (docs.foldl (fun s d => walk specs val d rootPath s) st)
  | [], st => grows_refl st
  | d :: t, st => by
    rw [List.foldl_cons]
    exact grows_trans (walk_grows specs val d rootPath st)
      (foldl_walk_grows specs val t (walk specs val d rootPath st))

/-- C1 counterexample: a document whose single record fails validation makes
`JSONParser.parse` raise `ValueError` (modelled as `Except.error`) instead of
returning the result set and error list together. -/
theorem c1_counterexample :
    (parse [⟨"M", [⟨"y", [⟨"root", []⟩, ⟨"y", []⟩], false⟩], [⟨"root", []⟩]⟩]
      (fun _ r => if r.any (fun pr => pr.2.isNone) then Except.error ["missing"]
        else Except.ok r)
      initState (J.obj (JFields.cons "x" (J.scalar "1") JFields.nil))).2 =
    Except.error [([⟨"root", []⟩], "M", ["missing"])] := rfl

/-- C1 (amended): validation failures are collected into the error list while
the traversal continues unchanged — which nodes are indexed and which
extractions are attempted is independent of the validator's verdicts — and
`extract_model_data`-style access returns results and errors together from
the walk state; but `JSONParser.parse` re-raises after the walk: it returns
`ValueError(errors)` precisely when the accumulated error list (which also
retains errors of earlier invocations) is non-empty, instead of returning the
pair. -/
theorem c1_amended_failures_collected_but_parse_raises (specs : List Spec)
    (val val2 : Validator) (st : PState) (doc : J) :
    (parse specs val st doc).1.attempts = (parse specs val2 st doc).1.attempts ∧
    (parse specs val st doc).1.index = (parse specs val2 st doc).1.index ∧
    (∃ l, (parse specs val st doc).1.errors = st.errors ++ l) ∧
    (parse specs val st doc).2 =
      (if (parse specs val st doc).1.errors.isEmpty
       then Except.ok (parse specs val st doc).1.results
       else Except.error (parse specs val st doc).1.errors) := by
  have hwc := walk_coreEq specs val val2 doc rootPath
    (resetFor specs st) (resetFor specs st) ⟨rfl, rfl, rfl⟩
  refine ⟨hwc.2.1, hwc.1, ?_, rfl⟩
  obtain ⟨_, ⟨l, hl⟩, _⟩ := walk_grows specs val doc rootPath (resetFor specs st)
  exact ⟨l, hl⟩

/-- C2 counterexample: in `parse_batch` the path index is never cleared, so
the state in which the second document's walk begins still contains the entry
`root.x` recorded while walking the first document; and the error list is
never reset, so a later `parse` invocation of a perfectly clean document
still begins (and ends) with the previous invocation's error — it even
re-raises it. -/
theorem c2_counterexample :
    (parse_batch [] (fun _ r => Except.ok r) initState
        [J.obj (JFields.cons "x" (J.scalar "1") JFields.nil), J.obj JFields.nil]).1 =
      walk [] (fun _ r => Except.ok r) (J.obj JFields.nil) rootPath
        (walk [] (fun _ r => Except.ok r)
          (J.obj (JFields.cons "x" (J.scalar "1") JFields.nil)) rootPath
          { initState with results := freshResults [] }) ∧
    lookupIdx (walk [] (fun _ r => Except.ok r)
        (J.obj (JFields.cons "x" (J.scalar "1") JFields.nil)) rootPath
        { initState with results := freshResults [] }).index
      [⟨"root", []⟩, ⟨"x", []⟩] = some (J.scalar "1") ∧
    (parse [⟨"M", [⟨"y", [⟨"root", []⟩, ⟨"y", []⟩], false⟩], [⟨"root", []⟩]⟩]
        (fun _ r => if r.any (fun pr => pr.2.isNone) then Except.error ["missing"]
          else Except.ok r)
        initState (J.obj (JFields.cons "x" (J.scalar "1") JFields.nil))).1.errors =
      [([⟨"root", []⟩], "M", ["missing"])] ∧
    (parse [⟨"M", [⟨"y", [⟨"root", []⟩, ⟨"y", []⟩], false⟩], [⟨"root", []⟩]⟩]
        (fun _ r => Except.ok r)
        (parse [⟨"M", [⟨"y", [⟨"root", []⟩, ⟨"y", []⟩], false⟩], [⟨"root", []⟩]⟩]
          (fun _ r => if r.any (fun pr => pr.2.isNone) then Except.error ["missing"]
            else Except.ok r)
          initState (J.obj (JFields.cons "x" (J.scalar "1") JFields.nil))).1
        (J.obj JFields.nil)).2 =
      Except.error [([⟨"root", []⟩], "M", ["missing"])] :=
  ⟨rfl, rfl, rfl, rfl⟩

/-- C2 (amended): the PathIndex and ResultSet are reset at the start of every
`parse` invocation, so the index a parse builds is independent of the
caller's previous index; but the ErrorList always persists (it only ever
grows), and `parse_batch` never clears the index — neither at entry nor
between documents — so the state in which a later batch document's walk
begins is exactly the uncleared state left by the earlier documents, and even
the first batch document sees every pre-existing index entry. -/
theorem c2_amended_index_reset_only_in_parse (specs : List Spec) (val : Validator)
    (st : PState) (doc d1 : J) (docs : List J) :
    (parse specs val st doc).1.index = (parse specs val initState doc).1.index ∧
    (∃ l, (parse specs val st doc).1.errors = st.errors ++ l) ∧
    (parse_batch specs val st (d1 :: docs)).1 =
      docs.foldl (fun s d => walk specs val d rootPath s)
        (walk specs val d1 rootPath { st with results := freshResults specs }) ∧
    (∃ l2, (parse_batch specs val st docs).1.index = l2 ++ st.index) := by
  refine ⟨?_, ?_, rfl, ?_⟩
  · exact (walk_coreEq specs val val doc rootPath
      (resetFor specs st) (resetFor specs initState) ⟨rfl, rfl, rfl⟩).1
  · obtain ⟨_, ⟨l, hl⟩, _⟩ := walk_grows specs val doc rootPath (resetFor specs st)
    exact ⟨l, hl⟩
  · obtain ⟨⟨l2, hl2⟩, _⟩ := foldl_walk_grows specs val docs
      { st with results := freshResults specs }
    exact ⟨l2, hl2⟩

/-! ## Unresolved aliases are absent values (rest of C3) -/

theorem lookupIdx_none_of_not_concrete :
    ∀ (idx : List (JPath × J)) (q : JPath),
    (∀ e ∈ idx, isConcretePath e.1 = true) → isConcretePath q = false →
    lookupIdx idx q = none
  | [], _, _, _ => rfl
  | (q2, w) :: t, q, hidx, hq => by
    have h2 : isConcretePath q2 = true := hidx (q2, w) (List.mem_cons_self _ _)
    have hne : q2 ≠ q := by
      intro heq
      rw [heq, hq] at h2
      cases h2
    simp only [lookupIdx, if_neg hne]
    exact lookupIdx_none_of_not_concrete t q
      (fun e he => hidx e (List.mem_cons_of_mem _ he)) hq

theorem concrete_append_key (p : JPath) (k : String) (h : isConcretePath p = true) :
    isConcretePath (p ++ [⟨k, []⟩]) = true := by
  simp only [isConcretePath, List.all_append] at *
  simp [h]

theorem concrete_appendIdx :
    ∀ (p : JPath) (n : Nat), isConcretePath p = true →
    isConcretePath (appendIdx p n) = true
  | [], n, _ => by simp [appendIdx, isConcretePath, Idx.isNum]
  | [s], n, h => by
    simp only [appendIdx, isConcretePath, List.all_cons, List.all_nil,
      List.all_append, Bool.and_eq_true] at h ⊢
    simp [h.1, Idx.isNum]
  | s :: s2 :: rest, n, h => by
    simp only [isConcretePath, List.all_cons, Bool.and_eq_true] at h
    have := concrete_appendIdx (s2 :: rest) n (by
      simp [isConcretePath, List.all_cons, h.2.1]
      exact fun x hx => by
        have := h.2.2
        simp only [List.all_eq_true] at this
        exact this x hx)
    simp only [appendIdx, isConcretePath, List.all_cons, Bool.and_eq_true]
    refine ⟨h.1, ?_⟩
    simpa [isConcretePath] using this

mutual
theorem walk_index_conc (specs : List Spec) (val : Validator) :
    ∀ (v : J) (p : JPath) (st : PState), isConcretePath p = true →
    (∀ e ∈ st.index, isConcretePath e.1 = true) →
    ∀ e ∈ (walk specs val v p st).index, isConcretePath e.1 = true
  | J.null, p, st, hp, hidx => by
    simp only [walk]
    intro e he
    rcases List.mem_cons.mp he with rfl | h2
    · exact hp
    · exact hidx e h2
  | J.scalar s, p, st, hp, hidx => by
    simp only [walk]
    intro e he
    rcases List.mem_cons.mp he with rfl | h2
    · exact hp
    · exact hidx e h2
  | J.obj fs, p, st, hp, hidx => by
    simp only [walk]
    intro e he
    rw [extractAt_index] at he
    refine walkFields_index_conc specs val fs p _ hp ?_ e he
    intro e2 he2
    rcases List.mem_cons.mp he2 with rfl | h2
    · exact hp
    · exact hidx e2 h2
  | J.arr xs, p, st, hp, hidx => by
    simp only [walk]
    refine walkItems_index_conc specs val xs p 0 _ hp ?_
    intro e2 he2
    rcases List.mem_cons.mp he2 with rfl | h2
    · exact hp
    · exact hidx e2 h2
theorem walkFields_index_conc (specs : List Spec) (val : Validator) :
    ∀ (fs : JFields) (p : JPath) (st : PState), isConcretePath p = true →
    (∀ e ∈ st.index, isConcretePath e.1 = true) →
    ∀ e ∈ (walkFields specs val fs p st).index, isConcretePath e.1 = true
  | JFields.nil, _, _, _, hidx => hidx
  | JFields.cons k v rest, p, st, hp, hidx => by
    simp only [walkFields]
    have hfp : isConcretePath (p ++ [⟨k, []⟩]) = true := concrete_append_key p k hp
    have hidx2 : ∀ e ∈ ((p ++ [⟨k, []⟩], v) :: st.index), isConcretePath e.1 = true := by
      intro e2 he2
      rcases List.mem_cons.mp he2 with rfl | h2
      · exact hfp
      · exact hidx e2 h2
    by_cases hc : v.isContainer = true
    · rw [if_pos hc]
      exact walkFields_index_conc specs val rest p _ hp
        (walk_index_conc specs val v _ _ hfp hidx2)
    · rw [if_neg hc]
      exact walkFields_index_conc specs val rest p _ hp hidx2
theorem walkItems_index_conc (specs : List Spec) (val : Validator) :
    ∀ (xs : JList) (p : JPath) (i : Nat) (st : PState), isConcretePath p = true →
    (∀ e ∈ st.index, isConcretePath e.1 = true) →
    ∀ e ∈ (walkItems specs val xs p i st).index, isConcretePath e.1 = true
  | JList.nil, _, _, _, _, hidx => hidx
  | JList.cons item rest, p, i, st, hp, hidx => by
    simp only [walkItems]
    have hip : isConcretePath (appendIdx p i) = true := concrete_appendIdx p i hp
    have hidx2 : ∀ e ∈ ((appendIdx p i, item) :: st.index), isConcretePath e.1 = true := by
      intro e2 he2
      rcases List.mem_cons.mp he2 with rfl | h2
      · exact hip
      · exact hidx e2 h2
    by_cases hc : item.isContainer = true
    · rw [if_pos hc]
      exact walkItems_index_conc specs val rest p (i + 1) _ hp
        (walk_index_conc specs val item _ _ hip hidx2)
    · rw [if_neg hc]
      exact walkItems_index_conc specs val rest p (i + 1) _ hp hidx2
end

/-- C3: on a concrete current path, the source resolver behaves exactly as
the spec describes it (literal segments copied verbatim with lockstep cursor
advance; each wildcard bound to the first key-base match at or after the
cursor, the cursor advancing past it; a failed scan leaves the wildcard
unresolved); and an unresolved path — still containing `[*]` — can never be
a key of the path index built by a parse, so the caller reads an absent
value rather than failing. -/
theorem c3_resolution_follows_spec_and_unresolved_is_absent (al cur : JPath)
    (hcur : isConcretePath cur = true) :
    replaceWildcardWithIndex al cur = resolveClaim al cur ∧
    ∀ (specs : List Spec) (val : Validator) (st : PState) (doc : J) (q : JPath),
      isConcretePath q = false →
      lookupIdx (parse specs val st doc).1.index q = none := by
  constructor
  · have h := resolveGo_eq_resolveClaim cur hcur al 0
    simpa [replaceWildcardWithIndex, List.drop_zero] using h
  · intro specs val st doc q hq
    refine lookupIdx_none_of_not_concrete _ q ?_ hq
    refine walk_index_conc specs val doc rootPath (resetFor specs st) (by rfl) ?_
    intro e he
    exact absurd he (List.not_mem_nil e)

theorem c3_witness :
    isConcretePath [⟨"root", []⟩, ⟨"a", [Idx.num 3]⟩] = true ∧
    replaceWildcardWithIndex [⟨"root", []⟩, ⟨"a", [Idx.star]⟩, ⟨"b", []⟩]
      [⟨"root", []⟩, ⟨"a", [Idx.num 3]⟩] =
    resolveClaim [⟨"root", []⟩, ⟨"a", [Idx.star]⟩, ⟨"b", []⟩]
      [⟨"root", []⟩, ⟨"a", [Idx.num 3]⟩] :=
  ⟨rfl, (c3_resolution_follows_spec_and_unresolved_is_absent
    [⟨"root", []⟩, ⟨"a", [Idx.star]⟩, ⟨"b", []⟩]
    [⟨"root", []⟩, ⟨"a", [Idx.num 3]⟩] rfl).1⟩

/-! ## Ancestor paths and subtree paths under the walk's path construction -/

theorem appendIdx_ne_nil : ∀ (p : JPath) (n : Nat), appendIdx p n ≠ []
  | [], n => by simp [appendIdx]
  | [s], n => by simp [appendIdx]
  | s :: s2 :: rest, n => by simp [appendIdx]

theorem segAncestors_append (key : String) (idxs : List Idx) (n : Idx) :
    segAncestors ⟨key, idxs ++ [n]⟩ = segAncestors ⟨key, idxs⟩ ++ [⟨key, idxs ++ [n]⟩] := by
  unfold segAncestors
  simp only [List.length_append, List.length_cons, List.length_nil, Nat.zero_add]
  rw [List.range_succ, List.map_append]
  congr 1
  · apply List.map_congr_left
    intro j hj
    have hj2 : j ≤ idxs.length := by
      have := List.mem_range.mp hj
      omega
    rw [List.take_append_of_le_length hj2]
  · simp

theorem ancestors_append_key :
    ∀ (p : JPath) (k : String),
    ancestorsOrSelf (p ++ [⟨k, []⟩]) = ancestorsOrSelf p ++ [p ++ [⟨k, []⟩]]
  | [], k => by rfl
  | s :: rest, k => by
    simp only [List.cons_append, ancestorsOrSelf, List.append_eq]
    rw [ancestors_append_key rest k]
    simp [List.map_append, List.append_assoc]

theorem ancestors_appendIdx :
    ∀ (p : JPath) (n : Nat), p ≠ [] →
    ancestorsOrSelf (appendIdx p n) = ancestorsOrSelf p ++ [appendIdx p n]
  | [], _, h => absurd rfl h
  | [s], n, _ => by
    simp only [appendIdx, ancestorsOrSelf]
    rw [show (⟨s.key, s.idxs ++ [Idx.num n]⟩ : Seg) =
      ⟨(⟨s.key, s.idxs⟩ : Seg).key, (⟨s.key, s.idxs⟩ : Seg).idxs ++ [Idx.num n]⟩ from rfl,
      segAncestors_append]
    simp [List.map_append]
  | s :: s2 :: rest, n, _ => by
    simp only [appendIdx, ancestorsOrSelf]
    rw [ancestors_appendIdx (s2 :: rest) n (by simp)]
    simp [ancestorsOrSelf, List.map_append, List.map_map, List.append_assoc]

theorem subPaths_of_not_container (v : J) (p : JPath) (h : v.isContainer = false) :
    subPaths v p = [p] := by
  cases v with
  | null => rfl
  | scalar s => rfl
  | arr xs => simp [J.isContainer] at h
  | obj fs => simp [J.isContainer] at h

theorem lookupIdx_cons_self (idx : List (JPath × J)) (q : JPath) (w : J) :
    lookupIdx ((q, w) :: idx) q ≠ none := by
  simp [lookupIdx]

theorem lookupIdx_cons_ne_none {idx : List (JPath × J)} {q : JPath}
    (h : lookupIdx idx q ≠ none) (e : JPath × J) :
    lookupIdx (e :: idx) q ≠ none := by
  cases e with
  | mk q2 w =>
    by_cases he : q2 = q
    · simp [lookupIdx, he]
    · simpa [lookupIdx, he] using h

theorem lookup_preserved_of_grows {st st2 : PState} (h : grows st st2) {q : JPath}
    (hl : lookupIdx st.index q ≠ none) : lookupIdx st2.index q ≠ none := by
  obtain ⟨⟨l, hidx⟩, _⟩ := h
  rw [hidx]
  exact lookupIdx_append_ne_none hl l

mutual
theorem walk_subpaths (specs : List Spec) (val : Validator) :
    ∀ (v : J) (p : JPath) (st : PState),
    ∀ q ∈ subPaths v p, lookupIdx (walk specs val v p st).index q ≠ none
  | J.null, p, st, q, hq => by
    rcases List.mem_singleton.mp hq with rfl
    simp only [walk]
    exact lookupIdx_cons_self _ _ _
  | J.scalar s, p, st, q, hq => by
    rcases List.mem_singleton.mp hq with rfl
    simp only [walk]
    exact lookupIdx_cons_self _ _ _
  | J.obj fs, p, st, q, hq => by
    simp only [walk, subPaths] at hq ⊢
    rw [extractAt_index]
    rcases List.mem_cons.mp hq with rfl | hsub
    · refine lookup_preserved_of_grows (walkFields_grows specs val fs q _) ?_
      exact lookupIdx_cons_self _ _ _
    · exact walkFields_subpaths specs val fs p _ q hsub
  | J.arr xs, p, st, q, hq => by
    simp only [walk, subPaths] at hq ⊢
    rcases List.mem_cons.mp hq with rfl | hsub
    · refine lookup_preserved_of_grows (walkItems_grows specs val xs q 0 _) ?_
      exact lookupIdx_cons_self _ _ _
    · exact walkItems_subpaths specs val xs p 0 _ q hsub
theorem walkFields_subpaths (specs : List Spec) (val : Validator) :
    ∀ (fs : JFields) (p : JPath) (st : PState),
    ∀ q ∈ fieldSubPaths fs p, lookupIdx (walkFields specs val fs p st).index q ≠ none
  | JFields.nil, _, _, q, hq => absurd hq (List.not_mem_nil q)
  | JFields.cons k v rest, p, st, q, hq => by
    simp only [fieldSubPaths] at hq
    simp only [walkFields]
    by_cases hc : v.isContainer = true
    · rw [if_pos hc]
      rcases List.mem_append.mp hq with hleft | hright
      · refine lookup_preserved_of_grows (walkFields_grows specs val rest p _) ?_
        exact walk_subpaths specs val v (p ++ [⟨k, []⟩]) _ q hleft
      · exact walkFields_subpaths specs val rest p _ q hright
    · rw [if_neg hc]
      rcases List.mem_append.mp hq with hleft | hright
      · rw [subPaths_of_not_container v _ (by simpa using hc)] at hleft
        rcases List.mem_singleton.mp hleft with rfl
        refine lookup_preserved_of_grows (walkFields_grows specs val rest p _) ?_
        exact lookupIdx_cons_self _ _ _
      · exact walkFields_subpaths specs val rest p _ q hright
theorem walkItems_subpaths (specs : List Spec) (val : Validator) :
    ∀ (xs : JList) (p : JPath) (i : Nat) (st : PState),
    ∀ q ∈ itemSubPaths xs p i, lookupIdx (walkItems specs val xs p i st).index q ≠ none
  | JList.nil, _, _, _, q, hq => absurd hq (List.not_mem_nil q)
  | JList.cons item rest, p, i, st, q, hq => by
    simp only [itemSubPaths] at hq
    simp only [walkItems]
    by_cases hc : item.isContainer = true
    · rw [if_pos hc]
      rcases List.mem_append.mp hq with hleft | hright
      · refine lookup_preserved_of_grows (walkItems_grows specs val rest p (i + 1) _) ?_
        exact walk_subpaths specs val item (appendIdx p i) _ q hleft
      · exact walkItems_subpaths specs val rest p (i + 1) _ q hright
    · rw [if_neg hc]
      rcases List.mem_append.mp hq with hleft | hright
      · rw [subPaths_of_not_container item _ (by simpa using hc)] at hleft
        rcases List.mem_singleton.mp hleft with rfl
        refine lookup_preserved_of_grows (walkItems_grows specs val rest p (i + 1) _) ?_
        exact lookupIdx_cons_self _ _ _
      · exact walkItems_subpaths specs val rest p (i + 1) _ q hright
end

/-! ## Index completeness at every extraction point (C5) -/

mutual
theorem walk_eventsOK (specs : List Spec) (val : Validator) :
    ∀ (v : J) (p : JPath) (st : PState), p ≠ [] →
    (∀ q ∈ ancestorsOrSelf p, lookupIdx ((p, v) :: st.index) q ≠ none) →
    eventsOK st → eventsOK (walk specs val v p st)
  | J.null, p, st, _, _, hev => by
    simp only [walk]
    exact hev
  | J.scalar s, p, st, _, _, hev => by
    simp only [walk]
    exact hev
  | J.obj fs, p, st, hp, hanc, hev => by
    simp only [walk]
    have hev2 := walkFields_eventsOK specs val fs p
      { st with index := (p, J.obj fs) :: st.index } hanc hev
    have hgrow := walkFields_grows specs val fs p
      { st with index := (p, J.obj fs) :: st.index }
    have hancin2 : ∀ q ∈ ancestorsOrSelf p,
        lookupIdx (walkFields specs val fs p
          { st with index := (p, J.obj fs) :: st.index }).index q ≠ none :=
      fun q hq => lookup_preserved_of_grows hgrow (hanc q hq)
    have hsubin2 : ∀ q ∈ subPaths (J.obj fs) p,
        lookupIdx (walkFields specs val fs p
          { st with index := (p, J.obj fs) :: st.index }).index q ≠ none := by
      intro q hq
      simp only [subPaths] at hq
      rcases List.mem_cons.mp hq with rfl | hsub
      · exact lookup_preserved_of_grows hgrow (lookupIdx_cons_self _ _ _)
      · exact walkFields_subpaths specs val fs p _ q hsub
    intro e he
    rw [extractAt_events] at he
    rcases List.mem_append.mp he with hold | hnew
    · exact hev2 e hold
    · rcases List.mem_singleton.mp hnew with rfl
      exact ⟨hancin2, hsubin2⟩
  | J.arr xs, p, st, hp, hanc, hev => by
    simp only [walk]
    exact walkItems_eventsOK specs val xs p 0
      { st with index := (p, J.arr xs) :: st.index } hp hanc hev
theorem walkFields_eventsOK (specs : List Spec) (val : Validator) :
    ∀ (fs : JFields) (p : JPath) (st : PState),
    (∀ q ∈ ancestorsOrSelf p, lookupIdx st.index q ≠ none) →
    eventsOK st → eventsOK (walkFields specs val fs p st)
  | JFields.nil, _, _, _, hev => hev
  | JFields.cons k v rest, p, st, hanc, hev => by
    simp only [walkFields]
    have hfp : ∀ q ∈ ancestorsOrSelf (p ++ [⟨k, []⟩]),
        lookupIdx ((p ++ [⟨k, []⟩], v) :: st.index) q ≠ none := by
      intro q hq
      rw [ancestors_append_key] at hq
      rcases List.mem_append.mp hq with hq1 | hq2
      · exact lookupIdx_cons_ne_none (hanc q hq1) _
      · rcases List.mem_singleton.mp hq2 with rfl
        exact lookupIdx_cons_self _ _ _
    by_cases hc : v.isContainer = true
    · rw [if_pos hc]
      have hev2 := walk_eventsOK specs val v (p ++ [⟨k, []⟩])
        { st with index := (p ++ [⟨k, []⟩], v) :: st.index } (by simp)
        (fun q hq => lookupIdx_cons_ne_none (hfp q hq) _) hev
      have hanc2 : ∀ q ∈ ancestorsOrSelf p,
          lookupIdx (walk specs val v (p ++ [⟨k, []⟩])
            { st with index := (p ++ [⟨k, []⟩], v) :: st.index }).index q ≠ none := by
        intro q hq
        refine lookup_preserved_of_grows (walk_grows specs val v _ _) ?_
        exact lookupIdx_cons_ne_none (hanc q hq) _
      exact walkFields_eventsOK specs val rest p _ hanc2 hev2
    · rw [if_neg hc]
      have hanc2 : ∀ q ∈ ancestorsOrSelf p,
          lookupIdx ((p ++ [⟨k, []⟩], v) :: st.index) q ≠ none :=
        fun q hq => lookupIdx_cons_ne_none (hanc q hq) _
      exact walkFields_eventsOK specs val rest p _ hanc2 hev
theorem walkItems_eventsOK (specs : List Spec) (val : Validator) :
    ∀ (xs : JList) (p : JPath) (i : Nat) (st : PState), p ≠ [] →
    (∀ q ∈ ancestorsOrSelf p, lookupIdx st.index q ≠ none) →
    eventsOK st → eventsOK (walkItems specs val xs p i st)
  | JList.nil, _, _, _, _, _, hev => hev
  | JList.cons item rest, p, i, st, hp, hanc, hev => by
    simp only [walkItems]
    have hip : ∀ q ∈ ancestorsOrSelf (appendIdx p i),
        lookupIdx ((appendIdx p i, item) :: st.index) q ≠ none := by
      intro q hq
      rw [ancestors_appendIdx p i hp] at hq
      rcases List.mem_append.mp hq with hq1 | hq2
      · exact lookupIdx_cons_ne_none (hanc q hq1) _
      · rcases List.mem_singleton.mp hq2 with rfl
        exact lookupIdx_cons_self _ _ _
    by_cases hc : item.isContainer = true
    · rw [if_pos hc]
      have hev2 := walk_eventsOK specs val item (appendIdx p i)
        { st with index := (appendIdx p i, item) :: st.index } (appendIdx_ne_nil p i)
        (fun q hq => lookupIdx_cons_ne_none (hip q hq) _) hev
      have hanc2 : ∀ q ∈ ancestorsOrSelf p,
          lookupIdx (walk specs val item (appendIdx p i)
            { st with index := (appendIdx p i, item) :: st.index }).index q ≠ none := by
        intro q hq
        refine lookup_preserved_of_grows (walk_grows specs val item _ _) ?_
        exact lookupIdx_cons_ne_none (hanc q hq) _
      exact walkItems_eventsOK specs val rest p (i + 1) _ hp hanc2 hev2
    · rw [if_neg hc]
      have hanc2 : ∀ q ∈ ancestorsOrSelf p,
          lookupIdx ((appendIdx p i, item) :: st.index) q ≠ none :=
        fun q hq => lookupIdx_cons_ne_none (hanc q hq) _
      exact walkItems_eventsOK specs val rest p (i + 1) _ hp hanc2 hev
end

/-- C5: whenever extraction is attempted at a mapping node (an extraction
event at path `P` holding node `v`, with index snapshot `snap`), the snapshot
already contains an entry for every ancestor-or-self path of `P` and for
every path in the subtree rooted at `P`: children are indexed before the walk
recurses into them, and extraction at `P` runs only after `P`'s entire
subtree has been indexed. -/
theorem c5_index_complete_at_extraction (specs : List Spec) (val : Validator)
    (st : PState) (doc : J) (P : JPath) (v : J) (snap : List (JPath × J))
    (he : (P, v, snap) ∈ (parse specs val st doc).1.events) :
    (∀ q ∈ ancestorsOrSelf P, lookupIdx snap q ≠ none) ∧
    (∀ q ∈ subPaths v P, lookupIdx snap q ≠ none) := by
  have h0 : eventsOK (resetFor specs st) :=
    fun e he2 => absurd he2 (List.not_mem_nil e)
  have hanc : ∀ q ∈ ancestorsOrSelf rootPath,
      lookupIdx ((rootPath, doc) :: (resetFor specs st).index) q ≠ none := by
    intro q hq
    have : q = rootPath := by
      rcases List.mem_singleton.mp (by simpa [ancestorsOrSelf, segAncestors, rootPath,
        List.range_succ] using hq) with rfl
      rfl
    rw [this]
    exact lookupIdx_cons_self _ _ _
  exact walk_eventsOK specs val doc rootPath (resetFor specs st)
    (by simp [rootPath]) hanc h0 (P, v, snap) he

theorem c5_witness :
    (([⟨"root", []⟩], J.obj JFields.nil, [(([⟨"root", []⟩] : JPath), J.obj JFields.nil)]) ∈
      (parse [] (fun _ r => Except.ok r) initState (J.obj JFields.nil)).1.events) ∧
    (∀ q ∈ ancestorsOrSelf [⟨"root", []⟩],
      lookupIdx [(([⟨"root", []⟩] : JPath), J.obj JFields.nil)] q ≠ none) ∧
    (∀ q ∈ subPaths (J.obj JFields.nil) [⟨"root", []⟩],
      lookupIdx [(([⟨"root", []⟩] : JPath), J.obj JFields.nil)] q ≠ none) := by
  have hm : (([⟨"root", []⟩] : JPath), J.obj JFields.nil,
      [(([⟨"root", []⟩] : JPath), J.obj JFields.nil)]) ∈
      (parse [] (fun _ r => Except.ok r) initState (J.obj JFields.nil)).1.events := by
    show (([⟨"root", []⟩] : JPath), J.obj JFields.nil,
      [(([⟨"root", []⟩] : JPath), J.obj JFields.nil)]) ∈
      [(([⟨"root", []⟩] : JPath), J.obj JFields.nil,
        [(([⟨"root", []⟩] : JPath), J.obj JFields.nil)])]
    exact List.mem_singleton.mpr rfl
  have h := c5_index_complete_at_extraction [] (fun _ r => Except.ok r) initState
    (J.obj JFields.nil) [⟨"root", []⟩] (J.obj JFields.nil)
    [(([⟨"root", []⟩] : JPath), J.obj JFields.nil)] hm
  exact ⟨hm, h.1, h.2⟩

/-! ## Step addressing: decodability and injectivity -/

theorem stepPath_ne_nil (p : JPath) (s : Step) : stepPath p s ≠ [] := by
  cases s with
  | field k => simp [stepPath]
  | elem i => exact appendIdx_ne_nil p i

theorem toSteps_cons (s : Seg) (p : JPath) : toSteps (s :: p) = segSteps s ++ toSteps p := by
  simp [toSteps]

theorem toSteps_append_key (p : JPath) (k : String) :
    toSteps (p ++ [⟨k, []⟩]) = toSteps p ++ [Step.field k] := by
  simp [toSteps, segSteps]

theorem toSteps_appendIdx :
    ∀ (p : JPath) (n : Nat), p ≠ [] →
    toSteps (appendIdx p n) = toSteps p ++ [Step.elem n]
  | [], _, h => absurd rfl h
  | [s], n, _ => by
    simp [appendIdx, toSteps, segSteps, List.map_append]
  | s :: s2 :: rest, n, _ => by
    rw [show appendIdx (s :: s2 :: rest) n = s :: appendIdx (s2 :: rest) n from rfl,
      toSteps_cons, toSteps_appendIdx (s2 :: rest) n (by simp), toSteps_cons,
      toSteps_cons, toSteps_cons]
    simp [List.append_assoc]

theorem toSteps_pathOfSteps :
    ∀ (ss : List Step) (p : JPath), p ≠ [] →
    toSteps (pathOfSteps p ss) = toSteps p ++ ss
  | [], p, _ => by simp [pathOfSteps]
  | s :: ss2, p, hp => by
    rw [show pathOfSteps p (s :: ss2) = pathOfSteps (stepPath p s) ss2 from rfl]
    rw [toSteps_pathOfSteps ss2 (stepPath p s) (stepPath_ne_nil p s)]
    cases s with
    | field k =>
      rw [show stepPath p (Step.field k) = p ++ [⟨k, []⟩] from rfl, toSteps_append_key]
      simp
    | elem i =>
      rw [show stepPath p (Step.elem i) = appendIdx p i from rfl, toSteps_appendIdx p i hp]
      simp

theorem pathOfSteps_inj {p : JPath} (hp : p ≠ []) {ss ss2 : List Step}
    (h : pathOfSteps p ss = pathOfSteps p ss2) : ss = ss2 := by
  have h2 := congrArg toSteps h
  rw [toSteps_pathOfSteps ss p hp, toSteps_pathOfSteps ss2 p hp] at h2
  exact List.append_cancel_left h2

/-! ## Well-formed objects: first bindings and children -/

theorem pairMem_key_mem :
    ∀ (fs : JFields) (k : String) (v : J), pairMem fs k v → k ∈ fieldKeys fs
  | JFields.nil, _, _, h => absurd h id
  | JFields.cons k0 v0 rest, k, v, h => by
    rcases h with ⟨rfl, rfl⟩ | h2
    · exact List.mem_cons_self _ _
    · exact List.mem_cons_of_mem _ (pairMem_key_mem rest k v h2)

theorem wfFields_parts {k0 : String} {v0 : J} {rest : JFields}
    (h : wfFields (JFields.cons k0 v0 rest) = true) :
    k0 ∉ fieldKeys rest ∧ wfJ v0 = true ∧ wfFields rest = true := by
  simp only [wfFields, Bool.and_eq_true, Bool.not_eq_true'] at h
  refine ⟨?_, h.1.2, h.2⟩
  intro hmem
  have hc := h.1.1
  have h2 : (fieldKeys rest).elem k0 = true := List.elem_eq_true_of_mem hmem
  rw [show ((fieldKeys rest).contains k0) = ((fieldKeys rest).elem k0) from rfl, h2] at hc
  cases hc

theorem pairMem_lookupField :
    ∀ (F : JFields) (k : String) (v : J), wfFields F = true → pairMem F k v →
    lookupField F k = some v
  | JFields.nil, _, _, _, h => absurd h id
  | JFields.cons k0 v0 rest, k, v, hwf, h => by
    obtain ⟨hnod, _, hwfr⟩ := wfFields_parts hwf
    rcases h with ⟨rfl, rfl⟩ | h2
    · simp [lookupField]
    · have hne : k0 ≠ k := by
        intro heq
        exact hnod (heq ▸ pairMem_key_mem rest k v h2)
      simp only [lookupField, if_neg hne]
      exact pairMem_lookupField rest k v hwfr h2

theorem pairMem_wfJ :
    ∀ (F : JFields) (k : String) (v : J), wfFields F = true → pairMem F k v →
    wfJ v = true
  | JFields.nil, _, _, _, h => absurd h id
  | JFields.cons k0 v0 rest, k, v, hwf, h => by
    obtain ⟨_, hwv, hwfr⟩ := wfFields_parts hwf
    rcases h with ⟨rfl, rfl⟩ | h2
    · exact hwv
    · exact pairMem_wfJ rest k v hwfr h2

theorem lookupField_pairMem :
    ∀ (F : JFields) (k : String) (v : J), lookupField F k = some v → pairMem F k v
  | JFields.nil, _, _, h => by cases h
  | JFields.cons k0 v0 rest, k, v, h => by
    by_cases he : k0 = k
    · rw [lookupField, if_pos he] at h
      exact Or.inl ⟨he, (Option.some.injEq _ _ ▸ h : _)⟩
    · rw [lookupField, if_neg he] at h
      exact Or.inr (lookupField_pairMem rest k v h)

theorem wfItems_get :
    ∀ (xs : JList) (j : Nat) (w : J), wfItems xs = true → JList.get? xs j = some w →
    wfJ w = true
  | JList.nil, _, _, _, h => by cases h
  | JList.cons v rest, 0, w, hwf, h => by
    have hparts : wfJ v = true ∧ wfItems rest = true := by
      simpa [wfItems, Bool.and_eq_true] using hwf
    rw [JList.get?] at h
    cases h
    exact hparts.1
  | JList.cons v rest, j + 1, w, hwf, h => by
    have hparts : wfJ v = true ∧ wfItems rest = true := by
      simpa [wfItems, Bool.and_eq_true] using hwf
    rw [JList.get?] at h
    exact wfItems_get rest j w hparts.2 h

/-! ## Lookup through a characterised block of new entries -/

theorem lookupIdx_append_forall :
    ∀ (Δ : List (JPath × J)) (rest : List (JPath × J)) (q : JPath) (u : J),
    (∃ w, (q, w) ∈ Δ) → (∀ w2, (q, w2) ∈ Δ → w2 = u) →
    lookupIdx (Δ ++ rest) q = some u
  | [], _, _, _, hex, _ => by
    obtain ⟨w, hw⟩ := hex
    exact absurd hw (List.not_mem_nil _)
  | (q2, w2) :: t, rest, q, u, hex, hval => by
    by_cases he : q2 = q
    · subst he
      have : w2 = u := hval w2 (List.mem_cons_self _ _)
      simp [lookupIdx, this]
    · simp only [List.cons_append, lookupIdx, if_neg he]
      obtain ⟨w, hw⟩ := hex
      rcases List.mem_cons.mp hw with heq | hmem
      · exact absurd (congrArg Prod.fst heq).symm he
      · exact lookupIdx_append_forall t rest q u ⟨w, hmem⟩
          (fun w3 hw3 => hval w3 (List.mem_cons_of_mem _ hw3))

/-! ## What the walk writes: every index entry is a node of the document -/

theorem getSteps_nil (v : J) : getSteps v [] = some v := by cases v <;> rfl

theorem getSteps_obj_field (fs : JFields) (k : String) (ss : List Step) :
    getSteps (J.obj fs) (Step.field k :: ss) =
      (match lookupField fs k with
       | some w => getSteps w ss
       | none => none) := rfl

theorem getSteps_arr_elem (xs : JList) (i : Nat) (ss : List Step) :
    getSteps (J.arr xs) (Step.elem i :: ss) =
      (match xs.get? i with
       | some w => getSteps w ss
       | none => none) := rfl

theorem getSteps_obj_elem (fs : JFields) (i : Nat) (ss : List Step) :
    getSteps (J.obj fs) (Step.elem i :: ss) = none := rfl

theorem getSteps_arr_field (xs : JList) (k : String) (ss : List Step) :
    getSteps (J.arr xs) (Step.field k :: ss) = none := rfl

theorem getSteps_not_container {v : J} (h : v.isContainer = false) (s : Step)
    (ss : List Step) : getSteps v (s :: ss) = none := by
  cases v with
  | null => cases s <;> rfl
  | scalar x => cases s <;> rfl
  | arr xs => simp [J.isContainer] at h
  | obj fs => simp [J.isContainer] at h

theorem pathOfSteps_cons (p : JPath) (s : Step) (ss : List Step) :
    pathOfSteps p (s :: ss) = pathOfSteps (stepPath p s) ss := rfl

mutual
theorem master_walk (specs : List Spec) (val : Validator) :
    ∀ (v : J) (p : JPath) (st : PState), wfJ v = true → p ≠ [] →
    ∃ Δ, (walk specs val v p st).index = Δ ++ st.index ∧
      (∀ q w, (q, w) ∈ Δ → ∃ ss, q = pathOfSteps p ss ∧ getSteps v ss = some w) ∧
      (∀ ss u, getSteps v ss = some u → ∃ w, (pathOfSteps p ss, w) ∈ Δ)
  | J.null, p, st, _, _ => by
    refine ⟨[(p, J.null)], by simp [walk], ?_, ?_⟩
    · intro q w hqw
      rcases List.mem_singleton.mp hqw with heq
      rw [Prod.mk.injEq] at heq
      obtain ⟨rfl, rfl⟩ := heq
      exact ⟨[], rfl, rfl⟩
    · intro ss u hss
      cases ss with
      | nil => exact ⟨J.null, List.mem_singleton.mpr rfl⟩
      | cons s ss2 =>
        rw [getSteps_not_container (show J.null.isContainer = false from rfl)] at hss
        cases hss
  | J.scalar x, p, st, _, _ => by
    refine ⟨[(p, J.scalar x)], by simp [walk], ?_, ?_⟩
    · intro q w hqw
      rcases List.mem_singleton.mp hqw with heq
      rw [Prod.mk.injEq] at heq
      obtain ⟨rfl, rfl⟩ := heq
      exact ⟨[], rfl, rfl⟩
    · intro ss u hss
      cases ss with
      | nil => exact ⟨J.scalar x, List.mem_singleton.mpr rfl⟩
      | cons s ss2 =>
        rw [getSteps_not_container (show (J.scalar x).isContainer = false from rfl)] at hss
        cases hss
  | J.obj fs, p, st, hwf, hp => by
    have hwff : wfFields fs = true := by simpa [wfJ] using hwf
    obtain ⟨Δf, hidxf, hcharf, hexf⟩ :=
      master_fields specs val fs p { st with index := (p, J.obj fs) :: st.index } fs hp
        (fun k v2 hpm => pairMem_lookupField fs k v2 hwff hpm)
        (fun k v2 hpm => pairMem_wfJ fs k v2 hwff hpm)
    refine ⟨Δf ++ [(p, J.obj fs)], ?_, ?_, ?_⟩
    · simp only [walk]
      rw [extractAt_index]
      show (walkFields specs val fs p { st with index := (p, J.obj fs) :: st.index }).index = _
      rw [hidxf]
      simp [List.append_assoc]
    · intro q w hqw
      rcases List.mem_append.mp hqw with hf | hself
      · obtain ⟨k, ss, hq, hg⟩ := hcharf q w hf
        exact ⟨Step.field k :: ss, hq, hg⟩
      · rcases List.mem_singleton.mp hself with heq
        rw [Prod.mk.injEq] at heq
        obtain ⟨rfl, rfl⟩ := heq
        exact ⟨[], rfl, rfl⟩
    · intro ss u hss
      cases ss with
      | nil =>
        exact ⟨J.obj fs, List.mem_append.mpr (Or.inr (List.mem_singleton.mpr rfl))⟩
      | cons s ss2 =>
        cases s with
        | elem i =>
          rw [getSteps_obj_elem] at hss
          cases hss
        | field k =>
          rw [getSteps_obj_field] at hss
          cases hlf : lookupField fs k with
          | none =>
            rw [hlf] at hss
            cases hss
          | some w2 =>
            rw [hlf] at hss
            obtain ⟨w, hw⟩ := hexf k w2 hlf ss2 u hss
            exact ⟨w, List.mem_append.mpr (Or.inl hw)⟩
  | J.arr xs, p, st, hwf, hp => by
    have hwfx : wfItems xs = true := by simpa [wfJ] using hwf
    obtain ⟨Δi, hidxi, hchari, hexi⟩ :=
      master_items specs val xs p 0 { st with index := (p, J.arr xs) :: st.index } xs hp
        (fun j w2 h => by rwa [Nat.zero_add])
        (fun j w2 h => wfItems_get xs j w2 hwfx h)
    refine ⟨Δi ++ [(p, J.arr xs)], ?_, ?_, ?_⟩
    · simp only [walk]
      rw [hidxi]
      simp [List.append_assoc]
    · intro q w hqw
      rcases List.mem_append.mp hqw with hf | hself
      · obtain ⟨j, ss, hq, hg⟩ := hchari q w hf
        exact ⟨Step.elem j :: ss, hq, hg⟩
      · rcases List.mem_singleton.mp hself with heq
        rw [Prod.mk.injEq] at heq
        obtain ⟨rfl, rfl⟩ := heq
        exact ⟨[], rfl, rfl⟩
    · intro ss u hss
      cases ss with
      | nil =>
        exact ⟨J.arr xs, List.mem_append.mpr (Or.inr (List.mem_singleton.mpr rfl))⟩
      | cons s ss2 =>
        cases s with
        | field k =>
          rw [getSteps_arr_field] at hss
          cases hss
        | elem i =>
          rw [getSteps_arr_elem] at hss
          cases hgi : xs.get? i with
          | none =>
            rw [hgi] at hss
            cases hss
          | some w2 =>
            rw [hgi] at hss
            obtain ⟨w, hw⟩ := hexi i w2 hgi ss2 u hss
            rw [Nat.zero_add] at hw
            exact ⟨w, List.mem_append.mpr (Or.inl hw)⟩
theorem master_fields (specs : List Spec) (val : Validator) :
    ∀ (fs : JFields) (p : JPath) (st : PState) (F : JFields), p ≠ [] →
    (∀ k v2, pairMem fs k v2 → lookupField F k = some v2) →
    (∀ k v2, pairMem fs k v2 → wfJ v2 = true) →
    ∃ Δ, (walkFields specs val fs p st).index = Δ ++ st.index ∧
      (∀ q w, (q, w) ∈ Δ → ∃ k ss, q = pathOfSteps p (Step.field k :: ss) ∧
        getSteps (J.obj F) (Step.field k :: ss) = some w) ∧
      (∀ k w2, lookupField fs k = some w2 → ∀ ss u, getSteps w2 ss = some u →
        ∃ w, (pathOfSteps p (Step.field k :: ss), w) ∈ Δ)
  | JFields.nil, p, st, F, _, _, _ => by
    refine ⟨[], by simp [walkFields], ?_, ?_⟩
    · intro q w h
      exact absurd h (List.not_mem_nil _)
    · intro k w2 h
      cases h
  | JFields.cons k0 v0 rest, p, st, F, hp, H1, H2 => by
    have hpm0 : pairMem (JFields.cons k0 v0 rest) k0 v0 := Or.inl ⟨rfl, rfl⟩
    have hlf0 : lookupField F k0 = some v0 := H1 k0 v0 hpm0
    have hwv0 : wfJ v0 = true := H2 k0 v0 hpm0
    have H1r : ∀ k v2, pairMem rest k v2 → lookupField F k = some v2 :=
      fun k v2 h => H1 k v2 (Or.inr h)
    have H2r : ∀ k v2, pairMem rest k v2 → wfJ v2 = true :=
      fun k v2 h => H2 k v2 (Or.inr h)
    by_cases hc : v0.isContainer = true
    · obtain ⟨Δw, hidxw, hcharw, hexw⟩ := master_walk specs val v0 (p ++ [⟨k0, []⟩])
        { st with index := (p ++ [⟨k0, []⟩], v0) :: st.index } hwv0 (by simp)
      obtain ⟨Δr, hidxr, hcharr, hexr⟩ := master_fields specs val rest p
        (walk specs val v0 (p ++ [⟨k0, []⟩])
          { st with index := (p ++ [⟨k0, []⟩], v0) :: st.index })
        F hp H1r H2r
      refine ⟨Δr ++ (Δw ++ [(p ++ [⟨k0, []⟩], v0)]), ?_, ?_, ?_⟩
      · simp only [walkFields]
        rw [if_pos hc, hidxr, hidxw]
        simp [List.append_assoc]
      · intro q w hqw
        rcases List.mem_append.mp hqw with hr | hqw2
        · exact hcharr q w hr
        · rcases List.mem_append.mp hqw2 with hw2 | hself
          · obtain ⟨ss2, hq, hg⟩ := hcharw q w hw2
            refine ⟨k0, ss2, hq, ?_⟩
            rw [getSteps_obj_field, hlf0]
            exact hg
          · rcases List.mem_singleton.mp hself with heq
            rw [Prod.mk.injEq] at heq
            obtain ⟨rfl, rfl⟩ := heq
            refine ⟨k0, [], rfl, ?_⟩
            rw [getSteps_obj_field, hlf0]
            exact getSteps_nil _
      · intro k w2 hlk ss u hss
        by_cases hk : k0 = k
        · subst hk
          rw [lookupField, if_pos rfl, Option.some.injEq] at hlk
          subst hlk
          obtain ⟨w, hw⟩ := hexw ss u hss
          exact ⟨w, List.mem_append.mpr (Or.inr (List.mem_append.mpr (Or.inl hw)))⟩
        · rw [lookupField, if_neg hk] at hlk
          obtain ⟨w, hw⟩ := hexr k w2 hlk ss u hss
          exact ⟨w, List.mem_append.mpr (Or.inl hw)⟩
    · obtain ⟨Δr, hidxr, hcharr, hexr⟩ := master_fields specs val rest p
        { st with index := (p ++ [⟨k0, []⟩], v0) :: st.index } F hp H1r H2r
      refine ⟨Δr ++ [(p ++ [⟨k0, []⟩], v0)], ?_, ?_, ?_⟩
      · simp only [walkFields]
        rw [if_neg hc, hidxr]
        simp [List.append_assoc]
      · intro q w hqw
        rcases List.mem_append.mp hqw with hr | hself
        · exact hcharr q w hr
        · rcases List.mem_singleton.mp hself with heq
          rw [Prod.mk.injEq] at heq
          obtain ⟨rfl, rfl⟩ := heq
          refine ⟨k0, [], rfl, ?_⟩
          rw [getSteps_obj_field, hlf0]
          exact getSteps_nil _
      · intro k w2 hlk ss u hss
        by_cases hk : k0 = k
        · subst hk
          rw [lookupField, if_pos rfl, Option.some.injEq] at hlk
          subst hlk
          cases ss with
          | nil =>
            exact ⟨v0, List.mem_append.mpr (Or.inr (List.mem_singleton.mpr rfl))⟩
          | cons s ss2 =>
            rw [getSteps_not_container (by simpa using hc)] at hss
            cases hss
        · rw [lookupField, if_neg hk] at hlk
          obtain ⟨w, hw⟩ := hexr k w2 hlk ss u hss
          exact ⟨w, List.mem_append.mpr (Or.inl hw)⟩
theorem master_items (specs : List Spec) (val : Validator) :
    ∀ (xs : JList) (p : JPath) (i : Nat) (st : PState) (X : JList), p ≠ [] →
    (∀ j w2, JList.get? xs j = some w2 → JList.get? X (i + j) = some w2) →
    (∀ j w2, JList.get? xs j = some w2 → wfJ w2 = true) →
    ∃ Δ, (walkItems specs val xs p i st).index = Δ ++ st.index ∧
      (∀ q w, (q, w) ∈ Δ → ∃ j ss, q = pathOfSteps p (Step.elem j :: ss) ∧
        getSteps (J.arr X) (Step.elem j :: ss) = some w) ∧
      (∀ j w2, JList.get? xs j = some w2 → ∀ ss u, getSteps w2 ss = some u →
        ∃ w, (pathOfSteps p (Step.elem (i + j) :: ss), w) ∈ Δ)
  | JList.nil, p, i, st, X, _, _, _ => by
    refine ⟨[], by simp [walkItems], ?_, ?_⟩
    · intro q w h
      exact absurd h (List.not_mem_nil _)
    · intro j w2 h
      cases h
  | JList.cons item rest, p, i, st, X, hp, H1, H2 => by
    have hg0 : JList.get? (JList.cons item rest) 0 = some item := rfl
    have hXi : JList.get? X i = some item := by
      have := H1 0 item hg0
      rwa [Nat.add_zero] at this
    have hwit : wfJ item = true := H2 0 item hg0
    have H1r : ∀ j w2, JList.get? rest j = some w2 → JList.get? X ((i + 1) + j) = some w2 := by
      intro j w2 h
      have := H1 (j + 1) w2 (by rw [JList.get?]; exact h)
      rwa [show i + (j + 1) = (i + 1) + j by omega] at this
    have H2r : ∀ j w2, JList.get? rest j = some w2 → wfJ w2 = true :=
      fun j w2 h => H2 (j + 1) w2 (by rw [JList.get?]; exact h)
    by_cases hc : item.isContainer = true
    · obtain ⟨Δw, hidxw, hcharw, hexw⟩ := master_walk specs val item (appendIdx p i)
        { st with index := (appendIdx p i, item) :: st.index } hwit (appendIdx_ne_nil p i)
      obtain ⟨Δr, hidxr, hcharr, hexr⟩ := master_items specs val rest p (i + 1)
        (walk specs val item (appendIdx p i)
          { st with index := (appendIdx p i, item) :: st.index })
        X hp H1r H2r
      refine ⟨Δr ++ (Δw ++ [(appendIdx p i, item)]), ?_, ?_, ?_⟩
      · simp only [walkItems]
        rw [if_pos hc, hidxr, hidxw]
        simp [List.append_assoc]
      · intro q w hqw
        rcases List.mem_append.mp hqw with hr | hqw2
        · exact hcharr q w hr
        · rcases List.mem_append.mp hqw2 with hw2 | hself
          · obtain ⟨ss2, hq, hg⟩ := hcharw q w hw2
            refine ⟨i, ss2, hq, ?_⟩
            rw [getSteps_arr_elem, hXi]
            exact hg
          · rcases List.mem_singleton.mp hself with heq
            rw [Prod.mk.injEq] at heq
            obtain ⟨rfl, rfl⟩ := heq
            refine ⟨i, [], rfl, ?_⟩
            rw [getSteps_arr_elem, hXi]
            exact getSteps_nil _
      · intro j w2 hgj ss u hss
        cases j with
        | zero =>
          rw [hg0, Option.some.injEq] at hgj
          subst hgj
          rw [Nat.add_zero]
          obtain ⟨w, hw⟩ := hexw ss u hss
          exact ⟨w, List.mem_append.mpr (Or.inr (List.mem_append.mpr (Or.inl hw)))⟩
        | succ j2 =>
          rw [JList.get?] at hgj
          obtain ⟨w, hw⟩ := hexr j2 w2 hgj ss u hss
          rw [show i + (j2 + 1) = (i + 1) + j2 by omega]
          exact ⟨w, List.mem_append.mpr (Or.inl hw)⟩
    · obtain ⟨Δr, hidxr, hcharr, hexr⟩ := master_items specs val rest p (i + 1)
        { st with index := (appendIdx p i, item) :: st.index } X hp H1r H2r
      refine ⟨Δr ++ [(appendIdx p i, item)], ?_, ?_, ?_⟩
      · simp only [walkItems]
        rw [if_neg hc, hidxr]
        simp [List.append_assoc]
      · intro q w hqw
        rcases List.mem_append.mp hqw with hr | hself
        · exact hcharr q w hr
        · rcases List.mem_singleton.mp hself with heq
          rw [Prod.mk.injEq] at heq
          obtain ⟨rfl, rfl⟩ := heq
          refine ⟨i, [], rfl, ?_⟩
          rw [getSteps_arr_elem, hXi]
          exact getSteps_nil _
      · intro j w2 hgj ss u hss
        cases j with
        | zero =>
          rw [hg0, Option.some.injEq] at hgj
          subst hgj
          cases ss with
          | nil =>
            rw [Nat.add_zero]
            exact ⟨item, List.mem_append.mpr (Or.inr (List.mem_singleton.mpr rfl))⟩
          | cons s ss2 =>
            rw [getSteps_not_container (by simpa using hc)] at hss
            cases hss
        | succ j2 =>
          rw [JList.get?] at hgj
          obtain ⟨w, hw⟩ := hexr j2 w2 hgj ss u hss
          rw [show i + (j2 + 1) = (i + 1) + j2 by omega]
          exact ⟨w, List.mem_append.mpr (Or.inl hw)⟩
end

/-- The walk records every node of a well-formed document under its path,
and the most recent value stored at that path is the node's value. -/
theorem walk_lookup_value (specs : List Spec) (val : Validator) (v : J) (p : JPath)
    (st : PState) (hwf : wfJ v = true) (hp : p ≠ []) (ss : List Step) (u : J)
    (hget : getSteps v ss = some u) :
    lookupIdx (walk specs val v p st).index (pathOfSteps p ss) = some u := by
  obtain ⟨Δ, hidx, hchar, hex⟩ := master_walk specs val v p st hwf hp
  obtain ⟨w, hw⟩ := hex ss u hget
  rw [hidx]
  refine lookupIdx_append_forall Δ st.index _ u ⟨w, hw⟩ ?_
  intro w2 hw2
  obtain ⟨ss2, hss2, hg2⟩ := hchar _ w2 hw2
  have hsseq : ss = ss2 := pathOfSteps_inj hp hss2
  rw [← hsseq] at hg2
  rw [hget, Option.some.injEq] at hg2
  exact hg2.symm

/-- C6: alias round-trip.  In any well-formed document whose key `a` holds an
array whose element 3 is a mapping containing key `b` with value `v`,
resolving the wildcard alias `root.a[*].b` against the concrete current path
`root.a[3]` yields `root.a[3].b`, and looking that path up in the path index
built by parsing that same document yields exactly `v`. -/
theorem c6_alias_round_trip (specs : List Spec) (val : Validator) (st : PState)
    (fs : JFields) (xs : JList) (gs : JFields) (v : J)
    (hwf : wfJ (J.obj fs) = true)
    (ha : lookupField fs "a" = some (J.arr xs))
    (h3 : JList.get? xs 3 = some (J.obj gs))
    (hb : lookupField gs "b" = some v) :
    replaceWildcardWithIndex [⟨"root", []⟩, ⟨"a", [Idx.star]⟩, ⟨"b", []⟩]
      [⟨"root", []⟩, ⟨"a", [Idx.num 3]⟩] =
      [⟨"root", []⟩, ⟨"a", [Idx.num 3]⟩, ⟨"b", []⟩] ∧
    lookupIdx (parse specs val st (J.obj fs)).1.index
      [⟨"root", []⟩, ⟨"a", [Idx.num 3]⟩, ⟨"b", []⟩] = some v := by
  refine ⟨rfl, ?_⟩
  have hget : getSteps (J.obj fs) [Step.field "a", Step.elem 3, Step.field "b"] = some v := by
    rw [getSteps_obj_field, ha]
    show getSteps (J.arr xs) [Step.elem 3, Step.field "b"] = some v
    rw [getSteps_arr_elem, h3]
    show getSteps (J.obj gs) [Step.field "b"] = some v
    rw [getSteps_obj_field, hb]
    exact getSteps_nil v
  have hval := walk_lookup_value specs val (J.obj fs) rootPath (resetFor specs st) hwf
    (by simp [rootPath]) [Step.field "a", Step.elem 3, Step.field "b"] v hget
  exact hval

theorem c6_witness :
    wfJ (J.obj (JFields.cons "a"
      (J.arr (JList.cons J.null (JList.cons J.null (JList.cons J.null
        (JList.cons (J.obj (JFields.cons "b" (J.scalar "V") JFields.nil)) JList.nil)))))
      JFields.nil)) = true ∧
    lookupIdx (parse [] (fun _ r => Except.ok r) initState
        (J.obj (JFields.cons "a"
          (J.arr (JList.cons J.null (JList.cons J.null (JList.cons J.null
            (JList.cons (J.obj (JFields.cons "b" (J.scalar "V") JFields.nil)) JList.nil)))))
          JFields.nil))).1.index
      [⟨"root", []⟩, ⟨"a", [Idx.num 3]⟩, ⟨"b", []⟩] = some (J.scalar "V") :=
  ⟨rfl, (c6_alias_round_trip [] (fun _ r => Except.ok r) initState
    (JFields.cons "a"
      (J.arr (JList.cons J.null (JList.cons J.null (JList.cons J.null
        (JList.cons (J.obj (JFields.cons "b" (J.scalar "V") JFields.nil)) JList.nil)))))
      JFields.nil)
    (JList.cons J.null (JList.cons J.null (JList.cons J.null
      (JList.cons (J.obj (JFields.cons "b" (J.scalar "V") JFields.nil)) JList.nil))))
    (JFields.cons "b" (J.scalar "V") JFields.nil)
    (J.scalar "V") rfl rfl rfl rfl).2⟩

end PJH
